import Mathlib

/-!
Verification of the text segmentation and chunking engine of the LecteurAide
backend (`backend/app/utils/text.py`, `backend/app/utils/chunking.py`,
`backend/app/services/pipeline.py`).

Strings are modelled as `List Char` (`Str`), with Python string primitives
(`strip`, `find`, `rfind`, slicing, `splitlines`, whitespace `split`)
defined below.  Conventions of the embedding:

* Python `s[a:b]` with non-negative clamped indices is `pySlice`.
* Line breaks are modelled as `'\n'` (the texts handled by the pipeline are
  extracted plain text; `splitlines` is modelled on `'\n'` alone).
* `\w`, `\d`, `isalpha`, `upper()` are modelled on ASCII via `Char.isAlphanum`,
  `Char.isDigit`, `Char.isAlpha`, `Char.toUpper`.
* The two float expressions in the sources, `int(n * 0.1)` and comparisons
  against `m * 0.3`, are modelled by exact integer arithmetic (`n / 10`, and
  `10 * x ≤/< 3 * m`).  For the magnitudes involved (counts below 2 ^ 45) the
  IEEE-754 double results of `n * 0.1` truncate to exactly `n // 10`, and the
  `0.3` comparisons agree with the rational comparison, because `0.1` and
  `0.3` round to doubles within half an ulp and the products stay within half
  an ulp of the exact rationals, so the integer model coincides with CPython.
* Loops whose Python counterparts advance an index are written with an explicit
  `fuel` argument that is instantiated at a provably sufficient bound at every
  call site, keeping every definition executable by the kernel.
* Python `int` values that the code immediately clamps (`max(x, 1)`,
  `max(x, 128)`, caps replaced when `<= 0`) are modelled as `Nat`; negative
  inputs behave identically to `0` in every modelled code path.
-/

abbrev Str := List Char

/-- Python whitespace class (`str.strip`, `\s`) restricted to the ASCII
whitespace characters. -/
def pyIsSpace (c : Char) : Bool :=
  c = ' ' || c = '\t' || c = '\n' || c = '\r' || c = '\x0b' || c = '\x0c'

/-- Python `s.lstrip()`. -/
def pyLstrip (s : Str) : Str := s.dropWhile pyIsSpace

/-- Python `s.rstrip()`. -/
def pyRstrip (s : Str) : Str := (s.reverse.dropWhile pyIsSpace).reverse

/-- Python `s.strip()`. -/
def pyStrip (s : Str) : Str := pyRstrip (pyLstrip s)

/-- Python `s[a:b]` for non-negative `a`, `b` (indices past the end clamp). -/
def pySlice (s : Str) (a b : Nat) : Str := (s.take b).drop a

/-- `sub` occurs in `s` at position `i`. -/
def occursAt (s sub : Str) (i : Nat) : Prop := (s.drop i).take sub.length = sub

instance (s sub : Str) (i : Nat) : Decidable (occursAt s sub i) := by
  unfold occursAt; infer_instance

/-- One candidate position of Python `s.find(sub, start)`: `matchAt` as a
Bool so the search is executable. -/
def matchAt (s sub : Str) (i : Nat) : Bool := decide (occursAt s sub i)

/-- Scanning core of Python `s.find(sub, start)`. -/
def pyFindGo (s sub : Str) : Nat → Nat → Option Nat
  | 0, _ => none
  | fuel + 1, i =>
    if i + sub.length ≤ s.length then
      if matchAt s sub i then some i else pyFindGo s sub fuel (i + 1)
    else none

/-- Python `s.find(sub, start)`; `none` models `-1`. -/
def pyFind (s sub : Str) (start : Nat) : Option Nat :=
  pyFindGo s sub (s.length + 1) start

/-- Last index of the character `c` in `l`, if any (index into `l`). -/
def lastIndexOf (l : Str) (c : Char) : Option Nat :=
  match l with
  | [] => none
  | x :: xs =>
    match lastIndexOf xs c with
    | some j => some (j + 1)
    | none => if x = c then some 0 else none

/-- Python `s.rfind(ch, a, b)` for a single character `ch`; `none` models
`-1`.  The result is an absolute index `i` with `a ≤ i < b`. -/
def pyRfindChar (s : Str) (c : Char) (a b : Nat) : Option Nat :=
  match lastIndexOf (pySlice s a b) c with
  | some j => some (a + j)
  | none => none

/-- Python `"\n".join(lines)`. -/
def joinLines : List Str → Str
  | [] => []
  | [l] => l
  | l :: ls => l ++ '\n' :: joinLines ls

/-- Python `" ".join(parts)`. -/
def joinSpace : List Str → Str
  | [] => []
  | [l] => l
  | l :: ls => l ++ ' ' :: joinSpace ls

/-- Scanner for Python `text.splitlines()` (no kept ends, `'\n'` breaks):
processes one character at a time, accumulating the current line reversed. -/
def splitlinesGo : Str → Str → List Str
  | [], acc => if acc = [] then [] else [acc.reverse]
  | c :: rest, acc =>
    if c = '\n' then acc.reverse :: splitlinesGo rest []
    else splitlinesGo rest (c :: acc)

/-- Python `text.splitlines()` modelled on `'\n'` breaks.  A trailing final
newline produces no trailing empty line, matching CPython. -/
def pySplitlines (s : Str) : List Str := splitlinesGo s []

/-- Scanner for Python `text.splitlines(True)` (kept ends). -/
def splitlinesKeepGo : Str → Str → List Str
  | [], acc => if acc = [] then [] else [acc.reverse]
  | c :: rest, acc =>
    if c = '\n' then (acc.reverse ++ ['\n']) :: splitlinesKeepGo rest []
    else splitlinesKeepGo rest (c :: acc)

/-- Python `text.splitlines(True)` modelled on `'\n'` breaks. -/
def pySplitlinesKeep (s : Str) : List Str := splitlinesKeepGo s []

/-- Scanner for Python `value.split()` (split on whitespace runs, dropping
empty words).  `mode = true` while inside a word. -/
def splitWsGo : Str → Str → List Str
  | [], acc => if acc = [] then [] else [acc.reverse]
  | c :: rest, acc =>
    if pyIsSpace c then
      if acc = [] then splitWsGo rest [] else acc.reverse :: splitWsGo rest []
    else splitWsGo rest (c :: acc)

/-- Python `value.split()`. -/
def pySplitWs (s : Str) : List Str := splitWsGo s []

/-- `" ".join(value.split())` — the whitespace normalization used by the
scene deduplicator (`pipeline.py`, `normalize`). -/
def pyNormalize (s : Str) : Str := joinSpace (pySplitWs s)

/-- Python `l[a:b]` on a list of sentences. -/
def pySliceList (l : List Str) (a b : Nat) : List Str := (l.take b).drop a

/-! ### `backend/app/utils/chunking.py` — `chunk_sentence_pairs` -/

structure SentenceChunk where
  index : Nat
  sentence_start : Nat
  sentence_end : Nat
  english_sentences : List Str
  french_sentences : List Str
  char_count : Nat
deriving DecidableEq, Repr, Inhabited

/-- Measured size of sentence `i`: `len(en) if en else len(fr)`, then
`max(·, 1)` (`chunk_sentence_pairs`, inner loop). -/
def sentenceChars (frL enL : List Str) (i : Nat) : Nat :=
  let en := enL.getD i []
  let fr := frL.getD i []
  max (if en = [] then fr.length else en.length) 1

/-- Inner accumulation loop of `chunk_sentence_pairs`: starting a chunk at
`start`, returns the exclusive end index and the measured character count.
The sentences gathered are exactly `frL[start:end]` / `enL[start:end]`. -/
def takeChunkEnd (frL enL : List Str) (cap approx start : Nat) :
    Nat → Nat → Nat → Nat × Nat
  | 0, endIdx, measured => (endIdx, measured)
  | fuel + 1, endIdx, measured =>
    if endIdx < frL.length then
      let sc := sentenceChars frL enL endIdx
      if measured + sc > cap ∧ endIdx ≠ start then (endIdx, measured)
      else
        if approx ≤ measured + sc then (endIdx + 1, measured + sc)
        else takeChunkEnd frL enL cap approx start fuel (endIdx + 1) (measured + sc)
    else (endIdx, measured)

/-- Outer loop of `chunk_sentence_pairs`.  `overlap_ratio` is the default
`0.1`, so `int((end - start) * 0.1)` is `(end - start) / 10` (see header). -/
def chunkLoop (frL enL : List Str) (cap approx : Nat) :
    Nat → Nat → Nat → List SentenceChunk
  | 0, _, _ => []
  | fuel + 1, start, chunkIndex =>
    if start < frL.length then
      let em := takeChunkEnd frL enL cap approx start (frL.length + 1) start 0
      if em.1 = start then []
      else
        let c : SentenceChunk :=
          ⟨chunkIndex, start, em.1, pySliceList enL start em.1,
            pySliceList frL start em.1, em.2⟩
        if frL.length ≤ em.1 then [c]
        else
          let ov := (em.1 - start) / 10
          let nextStart := max (em.1 - ov) (start + 1)
          c :: chunkLoop frL enL cap approx fuel (min nextStart frL.length) (chunkIndex + 1)
    else []

/-- `chunk_sentence_pairs(french, english, max_tokens, max_chunk_chars=cap)`
with the default `overlap_ratio = 0.1` and `min_chunk_tokens = 128`.
`capOpt = none` models `max_chunk_chars=None`; `some 0` models a
non-positive cap (both replaced by `approx_chars`). -/
def chunk_sentence_pairs (frL enL0 : List Str) (maxTokens : Nat)
    (capOpt : Option Nat) : List SentenceChunk :=
  if frL = [] then []
  else
    let tokensPerChunk := max maxTokens 128
    let approxChars := tokensPerChunk * 4
    let enL :=
      if enL0.length < frL.length then
        enL0 ++ List.replicate (frL.length - enL0.length) []
      else enL0
    let cap :=
      match capOpt with
      | none => approxChars
      | some m => if m = 0 then approxChars else m
    chunkLoop frL enL cap approxChars (frL.length + 1) 0 0

/-! ### `pipeline.py` — `translate_in_batches`

The external translation capability (`self._translator.translate_sentences`)
is a parameter `translator`.  The model returns both the 1:1 result list and
the list of batches handed to the capability, in call order.  `text =
sentence or ""` is the identity on `Str` (an empty string is replaced by an
empty string). -/

/-- Per-flush result handling: pad the capability's answer with empty strings
up to the batch size, then truncate to the batch size. -/
def tibFlush (translator : List Str → List Str) (batch : List Str) : List Str :=
  let translated := translator batch
  let padded :=
    if translated.length < batch.length then
      translated ++ List.replicate (batch.length - translated.length) []
    else translated
  padded.take batch.length

/-- Main loop of `translate_in_batches` over the sentence list, carrying the
open batch, its measured character count, the results, and the batches sent
so far. -/
def tibGo (translator : List Str → List Str) (maxChars maxItems : Nat) :
    List Str → List Str → Nat → List Str → List (List Str) →
      List Str × List (List Str)
  | [], batch, _, results, batches =>
    if batch = [] then (results, batches)
    else (results ++ tibFlush translator batch, batches ++ [batch])
  | s :: rest, batch, charCount, results, batches =>
    let len := max s.length 1
    if batch ≠ [] ∧ (charCount + len > maxChars ∨ maxItems ≤ batch.length) then
      tibGo translator maxChars maxItems rest [s] len
        (results ++ tibFlush translator batch) (batches ++ [batch])
    else
      tibGo translator maxChars maxItems rest (batch ++ [s]) (charCount + len)
        results batches

/-- `translate_in_batches(sentences)` with `settings.max_prompt_chars =
maxChars` and `settings.max_translation_sentences = maxItemsRaw` (clamped by
`max(·, 1)` as in the source).  Returns `(results, batches sent)`. -/
def translate_in_batches (translator : List Str → List Str)
    (maxChars maxItemsRaw : Nat) (sentences : List Str) :
    List Str × List (List Str) :=
  if sentences = [] then ([], [])
  else
    let maxItems := max maxItemsRaw 1
    let rb := tibGo translator maxChars maxItems sentences [] 0 [] []
    let results :=
      if rb.1.length < sentences.length then
        rb.1 ++ List.replicate (sentences.length - rb.1.length) []
      else rb.1
    (results.take sentences.length, rb.2)

/-- Measured character count of a batch: each sentence counts as
`max(len(text), 1)`. -/
def batchMeasured (batch : List Str) : Nat :=
  (batch.map (fun s => max s.length 1)).sum

/-! ### `backend/app/utils/text.py` — `strip_headings` -/

structure HeadingInfo where
  text : Str
  char_index : Nat
deriving DecidableEq, Repr, Inhabited

/-- Python `\w` (word character), ASCII model. -/
def isWordChar (c : Char) : Bool := c.isAlphanum || c = '_'

/-- Roman-numeral characters (`[ivxlcdm]`, case-insensitive). -/
def isRomanChar (c : Char) : Bool :=
  let lc := c.toLower
  lc = 'i' || lc = 'v' || lc = 'x' || lc = 'l' || lc = 'c' || lc = 'd' || lc = 'm'

/-- Full match of `^<keyword>\s+\w+$` (case-insensitive), used for the
`chapter`/`part` heading patterns. -/
def matchKeywordHeading (keyword : Str) (s : Str) : Bool :=
  let l := s.map Char.toLower
  let r := l.drop keyword.length
  keyword.isPrefixOf l && !(r.takeWhile pyIsSpace).isEmpty &&
    !(r.dropWhile pyIsSpace).isEmpty && (r.dropWhile pyIsSpace).all isWordChar

/-- `_looks_like_heading` from `strip_headings`. -/
def looks_like_heading (value : Str) : Bool :=
  let stripped := pyStrip value
  if stripped = [] then false
  else if 80 < stripped.length then false
  else if matchKeywordHeading ['c', 'h', 'a', 'p', 't', 'e', 'r'] stripped then true
  else if matchKeywordHeading ['p', 'a', 'r', 't'] stripped then true
  else if stripped.all Char.isDigit then true
  else if stripped.all isRomanChar then true
  else stripped.any Char.isAlpha && decide (stripped.map Char.toUpper = stripped)

/-- The line loop of `strip_headings`, instrumented: each removal records,
besides the `HeadingInfo` (with `char_index = output_offset` as in the
source), the number of lines retained so far — the index in the cleaned line
list of the first retained line after the heading.  `prevBlank` is
`index == 0 or not lines[index - 1].strip()`; the lookahead on `rest` is
`index == total_lines - 1 or not lines[index + 1].strip()`. -/
def nextIsBlank : List Str → Bool
  | [] => true
  | r :: _ => decide (pyStrip r = [])

def stripHeadingsGo : Bool → Nat → Nat → List Str → List Str × List (HeadingInfo × Nat)
  | _, _, _, [] => ([], [])
  | prevBlank, offset, kept, line :: rest =>
    if pyStrip line = [] then
      let r := stripHeadingsGo true offset (kept + 1) rest
      (line :: r.1, r.2)
    else
      if prevBlank && nextIsBlank rest && looks_like_heading line then
        let r := stripHeadingsGo false offset kept rest
        (r.1, (⟨pyStrip line, offset⟩, kept) :: r.2)
      else
        let r := stripHeadingsGo false (offset + line.length + 1) (kept + 1) rest
        (line :: r.1, r.2)

/-- `strip_headings(text)` — cleaned text and removed headings. -/
def strip_headings (text : Str) : Str × List HeadingInfo :=
  if text = [] then (text, [])
  else
    let r := stripHeadingsGo true 0 0 (pySplitlines text)
    (joinLines r.1, r.2.map Prod.fst)

/-- `len(line) + 1`: the space a retained line occupies in the joined
cleaned text (its characters plus one separator). -/
def lineWeight (l : Str) : Nat := l.length + 1

def weightSum (lines : List Str) : Nat := (lines.map lineWeight).sum

/-- Offset at which the `k`-th line of `lines` starts in
`"\n".join(lines)` (for `k < lines.length`). -/
def lineStart (lines : List Str) (k : Nat) : Nat := weightSum (lines.take k)

/-! ### `pipeline.py` — sentence slices, `build_prompt_segments` and the
adaptive cap-halving loop -/

/-- `SentenceSlice` from `pipeline.py` (the Python field `end` is `stop`
here, `end` being a Lean keyword). -/
structure SentenceSlice where
  text : Str
  start : Nat
  stop : Nat
  paragraph_index : Nat
deriving DecidableEq, Repr, Inhabited

/-- Translation truncation and measured size of one sentence in
`build_prompt_segments`: returns the (possibly truncated or dropped)
translation text and the sentence's `segment_chars`.  The comparison
`cutoff < allowed_translation * 0.3` is the exact integer model
`10 * cutoff < 3 * allowed` (see header). -/
def promptSegBody (maxChars : Nat) (text : Str) (translation : Str) :
    Str × Nat :=
  let segChars := text.length
  let tt :=
    if translation = [] then []
    else
      let allowed : Int := (maxChars : Int) - (segChars : Int) - 1
      if allowed ≤ 0 then []
      else if allowed < (translation.length : Int) then
        let a := allowed.toNat
        let cutoff :=
          match pyRfindChar translation ' ' 0 a with
          | none => a
          | some c => if 10 * c < 3 * a then a else c
        pyStrip (translation.take cutoff)
      else translation
  let segChars' := if tt = [] then segChars else segChars + tt.length + 1
  (tt, max segChars' 1)

/-- Accumulation loop of `build_prompt_segments` over the zipped
slice/translation pairs. -/
def promptSegLoop (maxChars : Nat) :
    List (SentenceSlice × Str) → List Str → List Str → Nat →
      List (Str × List Str)
  | [], currentFr, currentEn, _ =>
    if currentFr = [] then [] else [(joinLines currentFr, currentEn)]
  | (sl, tr) :: rest, currentFr, currentEn, currentChars =>
    let bt := promptSegBody maxChars sl.text tr
    if currentFr ≠ [] ∧ maxChars < currentChars + bt.2 then
      (joinLines currentFr, currentEn) ::
        promptSegLoop maxChars rest [sl.text] [bt.1] bt.2
    else
      promptSegLoop maxChars rest (currentFr ++ [sl.text]) (currentEn ++ [bt.1])
        (currentChars + bt.2)

/-- `build_prompt_segments(slices, translations, max_chars)`. -/
def build_prompt_segments (slices : List SentenceSlice) (translations : List Str)
    (maxChars : Nat) : List (Str × List Str) :=
  if slices = [] then []
  else promptSegLoop maxChars (slices.zip translations) [] [] 0

/-- `combined_len` from the rebalancing loop:
`len(item[0]) + len(" ".join(filter(None, item[1])))`. -/
def combinedLen (seg : Str × List Str) : Nat :=
  seg.1.length + (joinSpace (seg.2.filter (fun t => !t.isEmpty))).length

/-- The cap-halving `while` loop (`ingest`, after `build_prompt_segments`):
halve the effective cap (clamped at the floor) and regroup while some
segment exceeds the nominal cap `B` and the effective cap is above the
floor.  Returns the final segments and the list of effective caps passed to
`build_prompt_segments` by the loop. -/
def rebalanceLoop (B floor : Nat) (slcs : List SentenceSlice) (trs : List Str)
    (content : Str) : Nat → Nat → List (Str × List Str) →
      List (Str × List Str) × List Nat
  | 0, _, segs => (segs, [])
  | fuel + 1, cap, segs =>
    if (segs.any fun s => decide (B < combinedLen s)) && decide (floor < cap) then
      let cap' := max (cap / 2) floor
      let segs' := build_prompt_segments slcs trs cap'
      if segs' = [] then ([(content, trs)], [cap'])
      else
        let r := rebalanceLoop B floor slcs trs content fuel cap' segs'
        (r.1, cap' :: r.2)
    else (segs, [])

/-- The per-scene prompt-segment preparation (`ingest`, lines 518-530):
initial cap `max(B, 1)`, floor `max(128, cap // 8)`, then the halving loop.
Fuel `cap0 + 1` is provably sufficient (see `rebalanceLoop_fuel_stable`). -/
def rebalanceScene (B : Nat) (slcs : List SentenceSlice) (trs : List Str)
    (content : Str) : List (Str × List Str) × List Nat :=
  let cap0 := max B 1
  let segs0 := build_prompt_segments slcs trs cap0
  if segs0 = [] then ([(content, trs)], [])
  else rebalanceLoop B (max 128 (cap0 / 8)) slcs trs content (cap0 + 1) cap0 segs0

/-- Number of halvings (clamped at `floor`) needed to bring `cap` down to
the floor — the bound the spec derives for the rebalancing loop's iteration
count. -/
def capHalvings (floor : Nat) (cap : Nat) : Nat :=
  if cap ≤ floor then 0
  else 1 + capHalvings floor (max (cap / 2) floor)
termination_by cap
decreasing_by
  simp_wf
  omega

/-! ### `pipeline.py` — scene reconciliation (`ingest`, lines 325-434) and
the deduplication/merge pass (lines 436-497)

The external classifier output is modelled per chunk as a list of
`Proposal`s whose index fields carry the result of `parse_index`
(`Option Int`: `none` models an unparseable value).  The chunk inputs carry
only the fields the reconciler reads: `sentence_start` and the sentence
count of the chunk.  The sentence-slice list and the cleaned book text are
arbitrary parameters. -/

def paraAt (slices : List SentenceSlice) (i : Nat) : Nat :=
  (slices.getD i default).paragraph_index

structure Proposal where
  title : Option Str
  summary : Option Str
  start_sentence_index : Option Int
  end_sentence_index : Option Int
  continues_from_previous : Bool
  continues_to_next : Bool
deriving DecidableEq, Repr, Inhabited

structure ChunkInput where
  sentenceStart : Nat
  sentenceCount : Nat
  proposals : List Proposal
deriving DecidableEq, Repr, Inhabited

structure RawScene where
  title : Option Str
  summary : Option Str
  content : Str
  sentence_start : Nat
  sentence_end : Nat
  continues_from_previous : Bool
  continues_to_next : Bool
deriving DecidableEq, Repr, Inhabited

structure RecState where
  lastSummary : Option Str
  lastEnd : Int
  raw : List RawScene
deriving DecidableEq, Repr, Inhabited

/-- `while global_start > 0 and slices[global_start - 1].paragraph_index ==
start_paragraph: global_start -= 1` with `para` the (fixed) paragraph index
of the proposal's start slice. -/
def snapBack (slices : List SentenceSlice) (para : Nat) : Nat → Nat
  | 0 => 0
  | i + 1 =>
    if paraAt slices i = para then snapBack slices para i else i + 1

/-- `while global_end + 1 < len(slices) and slices[global_end + 1]
.paragraph_index == end_paragraph: global_end += 1` with `para` the (fixed)
paragraph index of the proposal's end slice. -/
def snapFwd (slices : List SentenceSlice) (para : Nat) : Nat → Nat → Nat
  | 0, i => i
  | fuel + 1, i =>
    if i + 1 < slices.length ∧ paraAt slices (i + 1) = para then
      snapFwd slices para fuel (i + 1)
    else i

/-- `last_scene_summary` update on acceptance (`ingest`, lines 427-429). -/
def updateSummary (old : Option Str) (psum : Option Str) : Option Str :=
  match psum with
  | some sv => if pyStrip sv = [] then old else some (pyStrip sv)
  | none => old

/-- Acceptance of a snapped, non-overlapping proposal: materialize the
content from the cleaned text, discard if blank, else record the scene,
update the running summary and advance the high-water mark. -/
def reconcileAccept (slices : List SentenceSlice) (bookText : Str)
    (st : RecState) (p : Proposal) (gs ge : Nat) : RecState :=
  let contentStart := (slices.getD gs default).start
  let contentEnd := (slices.getD ge default).stop
  let content := pyStrip (pySlice bookText contentStart contentEnd)
  if content = [] then st
  else
    { lastSummary := updateSummary st.lastSummary p.summary
      lastEnd := max st.lastEnd (ge : Int)
      raw := st.raw ++
        [⟨p.title, p.summary, content, gs, ge,
          p.continues_from_previous, p.continues_to_next⟩] }

/-- One proposal of one chunk (`ingest`, lines 359-430): parse/validate the
1-based chunk-local range, map to global indices, snap to paragraph
boundaries, enforce the high-water mark, then accept.  (The reassignment of
`start_paragraph` after the high-water adjustment in the source is dead and
omitted.) -/
def reconcileProposal (slices : List SentenceSlice) (bookText : Str)
    (chunkStart sentenceCount : Nat) (st : RecState) (p : Proposal) : RecState :=
  match p.start_sentence_index, p.end_sentence_index with
  | some startIndex, some endIndex =>
    let startOffset := startIndex - 1
    let endOffset := endIndex - 1
    if startOffset < 0 ∨ endOffset < startOffset ∨ (sentenceCount : Int) ≤ endOffset then
      st
    else
      let globalStart0 := chunkStart + startOffset.toNat
      let globalEnd0 := chunkStart + endOffset.toNat
      if slices.length ≤ globalEnd0 then st
      else
        let gs1 := snapBack slices (paraAt slices globalStart0) globalStart0
        let ge1 := snapFwd slices (paraAt slices globalEnd0) slices.length globalEnd0
        if (gs1 : Int) ≤ st.lastEnd then
          if ge1 < (st.lastEnd + 1).toNat then st
          else reconcileAccept slices bookText st p (st.lastEnd + 1).toNat ge1
        else reconcileAccept slices bookText st p gs1 ge1
  | _, _ => st

def reconcileChunk (slices : List SentenceSlice) (bookText : Str)
    (st : RecState) (ch : ChunkInput) : RecState :=
  ch.proposals.foldl
    (reconcileProposal slices bookText ch.sentenceStart ch.sentenceCount) st

/-- The whole sequential reconciliation pass over all chunks, starting from
`last_scene_summary = None`, `last_scene_end_idx = -1`, `raw_scenes = []`. -/
def reconcileAll (slices : List SentenceSlice) (bookText : Str)
    (chunks : List ChunkInput) : RecState :=
  chunks.foldl (reconcileChunk slices bookText) ⟨none, -1, []⟩

structure MergedScene where
  title : Option Str
  summary : Option Str
  content : Str
  sentence_start : Nat
  sentence_end : Nat
  normalized : Str
deriving DecidableEq, Repr, Inhabited

structure MergeState where
  merged : List MergedScene
  seen : List Str
deriving DecidableEq, Repr, Inhabited

/-- `seen_normalized.add(n)` (set semantics). -/
def addSeen (n : Str) (seen : List Str) : List Str :=
  if n ∈ seen then seen else n :: seen

/-- `seen_normalized.discard(n)` guarded by membership (set semantics). -/
def removeSeen (n : Str) (seen : List Str) : List Str :=
  seen.filter (fun x => decide (¬x = n))

/-- Summary combination on a continuation merge (`ingest`, lines 475-481). -/
def combineSummaries (lastS newS : Option Str) : Option Str :=
  match newS with
  | some ns =>
    if pyStrip ns = [] then lastS
    else
      match lastS with
      | some ls =>
        if pyStrip ls = [] then some (pyStrip ns)
        else some (pyStrip ls ++ ' ' :: pyStrip ns)
      | none => some (pyStrip ns)
  | none => lastS

/-- One step of the deduplication/merge pass (`ingest`, lines 442-497): a
continuation candidate merges into the last accepted scene (range union,
content re-sliced from the union, summaries combined, normalized-content set
updated); otherwise the candidate is dropped when its normalized content was
already seen, and appended as a new accepted scene otherwise. -/
def mergeStep (slices : List SentenceSlice) (bookText : Str)
    (st : MergeState) (c : RawScene) : MergeState :=
  let normalized := pyNormalize c.content
  if st.merged ≠ [] ∧ c.continues_from_previous then
    let last := st.merged.getLastD default
    let cs := min last.sentence_start c.sentence_start
    let ce := max last.sentence_end c.sentence_end
    let startChar := (slices.getD cs default).start
    let endChar := (slices.getD ce default).stop
    let combined := pyStrip (pySlice bookText startChar endChar)
    let newNorm := pyNormalize combined
    let updated : MergedScene :=
      { title := last.title
        summary := combineSummaries last.summary c.summary
        content := combined
        sentence_start := cs
        sentence_end := ce
        normalized := newNorm }
    { merged := st.merged.dropLast ++ [updated]
      seen := addSeen newNorm (removeSeen last.normalized st.seen) }
  else
    if normalized ∈ st.seen then st
    else
      { merged := st.merged ++
          [⟨c.title, c.summary, c.content, c.sentence_start, c.sentence_end,
            normalized⟩]
        seen := addSeen normalized st.seen }

def mergeAll (slices : List SentenceSlice) (bookText : Str)
    (raw : List RawScene) : MergeState :=
  raw.foldl (mergeStep slices bookText) ⟨[], []⟩

/-- The accepted scene sequence of one ingestion run: reconciliation of all
chunk proposals followed by the deduplication/merge pass. -/
def ingestScenes (slices : List SentenceSlice) (bookText : Str)
    (chunks : List ChunkInput) : List MergedScene :=
  (mergeAll slices bookText (reconcileAll slices bookText chunks).raw).merged

/-- A scene start never splits a paragraph: sentence 0 or a paragraph index
different from the preceding slice's. -/
def ParaInit (slices : List SentenceSlice) (i : Nat) : Prop :=
  i = 0 ∨ paraAt slices (i - 1) ≠ paraAt slices i

/-- A scene end never splits a paragraph: last slice or a paragraph index
different from the following slice's. -/
def ParaFin (slices : List SentenceSlice) (i : Nat) : Prop :=
  slices.length ≤ i + 1 ∨ paraAt slices (i + 1) ≠ paraAt slices i

/-- Well-formedness of one reconciled candidate. -/
def RawSceneOK (slices : List SentenceSlice) (r : RawScene) : Prop :=
  r.sentence_start ≤ r.sentence_end ∧ r.sentence_end < slices.length ∧
    ParaInit slices r.sentence_start ∧ ParaFin slices r.sentence_end

/-- Invariant of the reconciliation state: the accepted candidates are
strictly ordered without overlap, each is well formed and below the
high-water mark, and the high-water mark is `-1` or a valid paragraph-final
index. -/
def RecInv (slices : List SentenceSlice) (st : RecState) : Prop :=
  List.Chain' (fun a b => a.sentence_end < b.sentence_start) st.raw ∧
    (∀ r ∈ st.raw, RawSceneOK slices r ∧ (r.sentence_end : Int) ≤ st.lastEnd) ∧
    (st.lastEnd = -1 ∨
      (0 ≤ st.lastEnd ∧ st.lastEnd.toNat < slices.length ∧
        ParaFin slices st.lastEnd.toNat))

/-- Invariant of the merge pass relative to the candidates still to be
processed. -/
def MergeInv (slices : List SentenceSlice) (ms : MergeState)
    (remaining : List RawScene) : Prop :=
  List.Chain' (fun a b => a.sentence_end < b.sentence_start) ms.merged ∧
    (∀ m ∈ ms.merged, m.sentence_start ≤ m.sentence_end ∧
      ParaInit slices m.sentence_start ∧ ParaFin slices m.sentence_end) ∧
    (∀ m ∈ ms.merged, ∀ r ∈ remaining, m.sentence_end < r.sentence_start)

/-- C2 counterexample input: one French sentence of six characters, no
translation, supplied cap 3. -/
def c2CounterChunks : List SentenceChunk :=
  chunk_sentence_pairs [['a', 'a', 'a', 'a', 'a', 'a']] [[]] 1 (some 3)

/-- C6 counterexample input: a single four-character sentence under cap 3. -/
def c6CounterBatches : List (List Str) :=
  (translate_in_batches (fun x => x) 3 5 [['a', 'a', 'a', 'a']]).2

def c3Text : Str := "a\n\nCHAPTER ONE\n\nb".toList

/-- Concrete ingestion input used for the C8 counterexample and as witness
data: three single-sentence paragraphs, the first and third with identical
text. -/
def c8Slices : List SentenceSlice :=
  [⟨"Hello world.".toList, 0, 12, 0⟩, ⟨"Bye.".toList, 14, 18, 1⟩,
    ⟨"Hello world.".toList, 20, 32, 2⟩]

def c8Book : Str := "Hello world.\n\nBye.\n\nHello world.".toList

/-- One chunk covering the three sentences; the classifier proposes scene
`[1,1]`, a continuation `[2,2]`, and a duplicate-content scene `[3,3]`. -/
def c8Chunks : List ChunkInput :=
  [⟨0, 3, [⟨none, none, some 1, some 1, false, false⟩,
    ⟨none, none, some 2, some 2, true, false⟩,
    ⟨none, none, some 3, some 3, false, false⟩]⟩]

/-! ### `text.py` — `split_sentences`, and `pipeline.py` —
`build_sentence_slices` -/

/-- Sentence-boundary punctuation (`[.?!]` of `_SENTENCE_REGEX`). -/
def isPunct (c : Char) : Bool := c = '.' || c = '?' || c = '!'

/-- Lookbehind of `_SENTENCE_REGEX`: the previous character (head of the
reversed accumulator) is boundary punctuation. -/
def headIsPunct : Str → Bool
  | [] => false
  | p :: _ => isPunct p

/-- Scanner for `re.split(r"(?<=[.?!])\s+", s)`: `mode = true` while
consuming a separator run (maximal whitespace preceded by punctuation),
`accRev` the current part reversed, `out` the parts already emitted. -/
def splitScan : Bool → Str → Str → List Str → List Str
  | _, [], accRev, out => out ++ [accRev.reverse]
  | true, c :: rest, accRev, out =>
    if pyIsSpace c then splitScan true rest accRev out
    else splitScan false rest [c] out
  | false, c :: rest, accRev, out =>
    if pyIsSpace c && headIsPunct accRev then
      splitScan true rest [] (out ++ [accRev.reverse])
    else splitScan false rest (c :: accRev) out

/-- `_SENTENCE_REGEX.split(s)`. -/
def regexSplitSentences (s : Str) : List Str := splitScan false s [] []

/-- `split_sentences(text)` from `text.py`. -/
def split_sentences (text : Str) : List Str :=
  let stripped := pyStrip text
  if stripped = [] then []
  else ((regexSplitSentences stripped).map pyStrip).filter (fun p => !p.isEmpty)

/-- The paragraph-gathering loop of `build_sentence_slices` (lines 63-82):
walk the kept-ends lines, grouping maximal runs of non-blank lines into
`(paragraph_text, paragraph_start)` pairs, tracking the absolute character
position. -/
def paraGo (source : Str) : List Str → List Str → Option Nat → Nat →
    List (Str × Nat) → List (Str × Nat)
  | [], current, pstart, _, paras =>
    match pstart with
    | some p => if current ≠ [] then paras ++ [(current.flatten, p)] else paras
    | none => paras
  | line :: rest, current, pstart, position, paras =>
    if pyStrip line ≠ [] then
      paraGo source rest (current ++ [line])
        (match pstart with
          | none => some position
          | some p => some p)
        (position + line.length) paras
    else
      match pstart with
      | some p =>
        if current ≠ [] then
          paraGo source rest [] none (position + line.length)
            (paras ++ [(current.flatten, p)])
        else paraGo source rest current (some p) (position + line.length) paras
      | none => paraGo source rest current none (position + line.length) paras

/-- The long-sentence segmentation loop of `build_sentence_slices`
(lines 117-140): split a found sentence occupying `[segStart, endIdx)` of the
source into segments of at most `maxChars` characters, preferring to break at
the last space (or newline) in the window.  The float comparison
`backtrack <= segment_start + max_chars * 0.3` is the exact integer model
`10 * b ≤ 10 * segStart + 3 * maxChars` (see header).  `segEnd` is the
end of one segment (`segment_end` after the backtrack adjustment,
lines 118-130). -/
def segEnd (source : Str) (maxChars segStart endIdx : Nat) : Nat :=
  let se0 := min (segStart + maxChars) endIdx
  if se0 < endIdx then
    let bt1 := pyRfindChar source ' ' segStart se0
    let bt2 :=
      match bt1 with
      | none => pyRfindChar source '\n' segStart se0
      | some b =>
        if 10 * b ≤ 10 * segStart + 3 * maxChars then
          pyRfindChar source '\n' segStart se0
        else some b
    match bt2 with
    | some b => if segStart < b then b else se0
    | none => se0
  else se0

def segLoop (source : Str) (maxChars pIdx endIdx : Nat) :
    Nat → Nat → List SentenceSlice
  | 0, _ => []
  | fuel + 1, segStart =>
    if segStart < endIdx then
      let se0 := min (segStart + maxChars) endIdx
      let se1 := segEnd source maxChars segStart endIdx
      let segText := pyStrip (pySlice source segStart se1)
      let emitted : List SentenceSlice :=
        if segText = [] then [] else [⟨segText, segStart, se1, pIdx⟩]
      if segStart < se1 then
        emitted ++ segLoop source maxChars pIdx endIdx fuel se1
      else
        if segStart < se0 then
          emitted ++ segLoop source maxChars pIdx endIdx fuel se0
        else emitted
    else []

/-- The per-paragraph sentence loop of `build_sentence_slices`
(lines 96-141): locate each sentence by forward search from the advancing
cursor (falling back to an unconstrained search), emit it as one slice when
it fits `max_chars`, else emit segment slices; the cursor advances to the
end of the found occurrence. -/
def processSentences (source : Str) (maxChars pIdx : Nat) :
    List Str → Nat → List SentenceSlice × Nat
  | [], ss => ([], ss)
  | sentence :: rest, ss =>
    if sentence = [] then processSentences source maxChars pIdx rest ss
    else
      let idxOpt :=
        match pyFind source sentence ss with
        | some i => some i
        | none => pyFind source sentence 0
      match idxOpt with
      | none => processSentences source maxChars pIdx rest ss
      | some idx =>
        let endIdx := idx + sentence.length
        if sentence.length ≤ maxChars then
          let r := processSentences source maxChars pIdx rest endIdx
          (⟨sentence, idx, endIdx, pIdx⟩ :: r.1, r.2)
        else
          let segs := segLoop source maxChars pIdx endIdx (endIdx + 1) idx
          let r := processSentences source maxChars pIdx rest endIdx
          (segs ++ r.1, r.2)

/-- The paragraph loop of `build_sentence_slices` (lines 91-141):
`search_start = max(search_start, paragraph_start)` before each paragraph's
sentences. -/
def paraLoop (source : Str) (maxChars : Nat) :
    List (Str × Nat) → Nat → Nat → List SentenceSlice
  | [], _, _ => []
  | (ptext, pstart) :: rest, pIdx, ss =>
    let sentences := split_sentences ptext
    if sentences = [] then paraLoop source maxChars rest (pIdx + 1) ss
    else
      let r := processSentences source maxChars pIdx sentences (max ss pstart)
      r.1 ++ paraLoop source maxChars rest (pIdx + 1) r.2

/-- `build_sentence_slices(source_text)` with
`settings.max_prompt_chars = maxChars`. -/
def build_sentence_slices (maxChars : Nat) (sourceText : Str) :
    List SentenceSlice :=
  if pyStrip sourceText = [] then []
  else
    let lines := pySplitlinesKeep sourceText
    let paragraphs0 := paraGo sourceText lines [] none 0 []
    let paragraphs := if paragraphs0 = [] then [(sourceText, 0)] else paragraphs0
    let slices := paraLoop sourceText maxChars paragraphs 0 0
    if slices ≠ [] then slices
    else
      let stripped := pyStrip sourceText
      let idx :=
        match pyFind sourceText stripped 0 with
        | some i => i
        | none => 0
      [⟨stripped, idx, idx + stripped.length, 0⟩]

/-- Ordered occurrence chain: the strings of `ts` occur in `src` in order,
starting at or after `i`, each occurrence ending at or before `b`. -/
def OccChainB (src : Str) : Nat → List Str → Nat → Prop
  | _, [], _ => True
  | i, t :: ts, b =>
    ∃ j, i ≤ j ∧ occursAt src t j ∧ j + t.length ≤ b ∧
      OccChainB src (j + t.length) ts b

/-- Ordered paragraph chain: each `(text, start)` pair of `paras` occurs in
`src` at its recorded start, the starts at or after `i` and pairwise
non-overlapping in order. -/
def ParaChain (src : Str) : Nat → List (Str × Nat) → Prop
  | _, [] => True
  | i, tp :: rest =>
    i ≤ tp.2 ∧ occursAt src tp.1 tp.2 ∧ ParaChain src (tp.2 + tp.1.length) rest

/-- A well-formed block of slices: each slice's text is the stripped source
slice between its bounds, all starts lie in `[lo, hi]`, and the starts are
non-decreasing. -/
def SliceBlock (source : Str) (lo : Nat) (l : List SentenceSlice)
    (hi : Nat) : Prop :=
  (∀ sl ∈ l, sl.text = pyStrip (pySlice source sl.start sl.stop) ∧
    lo ≤ sl.start ∧ sl.start ≤ hi) ∧
  List.Chain' (fun a b => a.start ≤ b.start) l ∧ lo ≤ hi

-- ===== THEOREMS =====

/-! ### Lemmas about `takeChunkEnd` / `chunkLoop` -/

theorem takeChunkEnd_cap (frL enL : List Str) (cap approx start : Nat) :
    ∀ fuel endIdx measured,
      (endIdx = start ∧ measured = 0) ∨
        (start < endIdx ∧ (measured ≤ cap ∨ endIdx = start + 1)) →
      (takeChunkEnd frL enL cap approx start fuel endIdx measured).1 = start ∨
        (start < (takeChunkEnd frL enL cap approx start fuel endIdx measured).1 ∧
          ((takeChunkEnd frL enL cap approx start fuel endIdx measured).2 ≤ cap ∨
            (takeChunkEnd frL enL cap approx start fuel endIdx measured).1 = start + 1)) := by
  intro fuel
  induction fuel with
  | zero =>
    intro endIdx measured h
    simp only [takeChunkEnd]
    rcases h with ⟨h1, _⟩ | ⟨h1, h2⟩
    · exact Or.inl h1
    · exact Or.inr ⟨h1, h2.imp id id⟩
  | succ fuel ih =>
    intro endIdx measured h
    simp only [takeChunkEnd]
    split
    · split
      · rename_i hbr
        rcases h with ⟨h1, _⟩ | ⟨h1, h2⟩
        · exact absurd h1 hbr.2
        · exact Or.inr ⟨h1, h2.imp id id⟩
      · rename_i hbr
        have hnext : start < endIdx + 1 ∧
            (measured + sentenceChars frL enL endIdx ≤ cap ∨ endIdx + 1 = start + 1) := by
          rcases h with ⟨h1, _⟩ | ⟨h1, _⟩
          · exact ⟨by omega, Or.inr (by omega)⟩
          · refine ⟨by omega, Or.inl ?_⟩
            by_contra hc
            exact hbr ⟨by omega, by omega⟩
        split
        · exact Or.inr ⟨hnext.1, hnext.2.imp id id⟩
        · exact ih (endIdx + 1) (measured + sentenceChars frL enL endIdx) (Or.inr hnext)
    · rcases h with ⟨h1, _⟩ | ⟨h1, h2⟩
      · exact Or.inl h1
      · exact Or.inr ⟨h1, h2.imp id id⟩

theorem takeChunkEnd_bounds (frL enL : List Str) (cap approx start : Nat) :
    ∀ fuel endIdx measured, endIdx ≤ frL.length →
      endIdx ≤ (takeChunkEnd frL enL cap approx start fuel endIdx measured).1 ∧
        (takeChunkEnd frL enL cap approx start fuel endIdx measured).1 ≤ frL.length := by
  intro fuel
  induction fuel with
  | zero => intro endIdx measured h; simp only [takeChunkEnd]; omega
  | succ fuel ih =>
    intro endIdx measured h
    simp only [takeChunkEnd]
    split
    · rename_i hlen
      split
      · omega
      · split
        · omega
        · have := ih (endIdx + 1) (measured + sentenceChars frL enL endIdx) (by omega)
          omega
    · omega

theorem takeChunkEnd_progress (frL enL : List Str) (cap approx start : Nat) :
    ∀ fuel, 0 < fuel → start < frL.length →
      start + 1 ≤ (takeChunkEnd frL enL cap approx start fuel start 0).1 := by
  intro fuel hf hlen
  cases fuel with
  | zero => omega
  | succ fuel =>
    have hbr : ¬(0 + sentenceChars frL enL start > cap ∧ start ≠ start) := by
      intro h; exact h.2 rfl
    simp only [takeChunkEnd, if_pos hlen, if_neg hbr]
    split
    · omega
    · have := takeChunkEnd_bounds frL enL cap approx start fuel (start + 1)
        (0 + sentenceChars frL enL start) (by omega)
      omega

theorem chunkLoop_cap (frL enL : List Str) (cap approx : Nat) :
    ∀ fuel start chunkIndex, ∀ c ∈ chunkLoop frL enL cap approx fuel start chunkIndex,
      c.char_count ≤ cap ∨ c.french_sentences.length = 1 := by
  intro fuel
  induction fuel with
  | zero => intro start ci c hc; simp only [chunkLoop, List.not_mem_nil] at hc
  | succ fuel ih =>
    intro start ci c hc
    simp only [chunkLoop] at hc
    set em := takeChunkEnd frL enL cap approx start (frL.length + 1) start 0 with hem
    have hchunk : ∀ x : SentenceChunk, ¬em.1 = start → start < frL.length →
        x = ⟨ci, start, em.1, pySliceList enL start em.1,
          pySliceList frL start em.1, em.2⟩ →
        x.char_count ≤ cap ∨ x.french_sentences.length = 1 := by
      intro x hz hlen hx
      have hcap := takeChunkEnd_cap frL enL cap approx start (frL.length + 1) start 0
        (Or.inl ⟨rfl, rfl⟩)
      rw [← hem] at hcap
      have hbnd := takeChunkEnd_bounds frL enL cap approx start (frL.length + 1) start 0
        (by omega)
      rw [← hem] at hbnd
      have hprop : em.2 ≤ cap ∨ em.1 = start + 1 := by
        rcases hcap with h | ⟨_, h⟩
        · exact absurd h hz
        · exact h
      subst hx
      rcases hprop with h | h
      · exact Or.inl h
      · refine Or.inr ?_
        simp only [pySliceList, List.length_drop, List.length_take, h]
        omega
    split at hc
    · rename_i hlen
      split at hc
      · exact absurd hc (List.not_mem_nil c)
      · rename_i hz
        split at hc
        · rw [List.mem_singleton] at hc
          exact hchunk c hz hlen hc
        · rw [List.mem_cons] at hc
          rcases hc with hc | hc
          · exact hchunk c hz hlen hc
          · exact ih _ _ c hc
    · exact absurd hc (List.not_mem_nil c)

theorem getLastD_irrel {α : Type} (l : List α) (a b : α) (hl : l ≠ []) :
    l.getLastD a = l.getLastD b := by
  rw [List.getLastD_eq_getLast?, List.getLastD_eq_getLast?]
  cases hq : l.getLast? with
  | none => exact absurd (List.getLast?_eq_none_iff.1 hq) hl
  | some y => rfl

theorem chunkLoop_mem (frL enL : List Str) (cap approx : Nat) :
    ∀ fuel start chunkIndex, ∀ c ∈ chunkLoop frL enL cap approx fuel start chunkIndex,
      start ≤ c.sentence_start ∧ c.sentence_start < c.sentence_end ∧
        c.sentence_end ≤ frL.length := by
  intro fuel
  induction fuel with
  | zero => intro start ci c hc; simp only [chunkLoop, List.not_mem_nil] at hc
  | succ fuel ih =>
    intro start ci c hc
    simp only [chunkLoop] at hc
    split at hc
    · rename_i hlen
      split at hc
      · exact absurd hc (List.not_mem_nil c)
      · rename_i hz
        have hpro := takeChunkEnd_progress frL enL cap approx start (frL.length + 1)
          (by omega) hlen
        have hbnd := takeChunkEnd_bounds frL enL cap approx start (frL.length + 1) start 0
          (by omega)
        split at hc
        · rw [List.mem_singleton] at hc
          subst hc
          refine ⟨?_, ?_, ?_⟩ <;> dsimp only <;> omega
        · rw [List.mem_cons] at hc
          rcases hc with hc | hc
          · subst hc
            refine ⟨?_, ?_, ?_⟩ <;> dsimp only <;> omega
          · have := ih _ _ c hc
            exact ⟨by omega, this.2⟩
    · exact absurd hc (List.not_mem_nil c)

theorem chunkLoop_head (frL enL : List Str) (cap approx : Nat) :
    ∀ fuel start chunkIndex, 0 < fuel → start < frL.length →
      chunkLoop frL enL cap approx fuel start chunkIndex ≠ [] ∧
        ((chunkLoop frL enL cap approx fuel start chunkIndex).headD
          default).sentence_start = start := by
  intro fuel start ci hf hlen
  cases fuel with
  | zero => omega
  | succ fuel =>
    simp only [chunkLoop, if_pos hlen]
    have hpro := takeChunkEnd_progress frL enL cap approx start (frL.length + 1)
      (by omega) hlen
    have hz : ¬(takeChunkEnd frL enL cap approx start (frL.length + 1) start 0).1 = start := by
      omega
    rw [if_neg hz]
    split
    · exact ⟨by simp, rfl⟩
    · exact ⟨by simp, rfl⟩

theorem chunkLoop_chain (frL enL : List Str) (cap approx : Nat) :
    ∀ fuel start chunkIndex,
      List.Chain'
        (fun a b => a.sentence_start < b.sentence_start ∧ b.sentence_start ≤ a.sentence_end)
        (chunkLoop frL enL cap approx fuel start chunkIndex) := by
  intro fuel
  induction fuel with
  | zero => intro start ci; simp only [chunkLoop]; exact List.chain'_nil
  | succ fuel ih =>
    intro start ci
    simp only [chunkLoop]
    split
    · rename_i hlen
      set em := takeChunkEnd frL enL cap approx start (frL.length + 1) start 0 with hem
      split
      · exact List.chain'_nil
      · rename_i hz
        have hpro := takeChunkEnd_progress frL enL cap approx start (frL.length + 1)
          (by omega) hlen
        rw [← hem] at hpro
        split
        · exact List.chain'_singleton _
        · rename_i hend
          push_neg at hend
          refine List.chain'_cons'.2 ⟨?_, ih _ _⟩
          intro y hy
          have hns : min (max (em.1 - (em.1 - start) / 10) (start + 1)) frL.length
              < frL.length := by omega
          rcases Nat.eq_zero_or_pos fuel with hf | hf
          · subst hf
            simp only [chunkLoop] at hy
            exact absurd hy (by simp)
          · have hhd := chunkLoop_head frL enL cap approx fuel
              (min (max (em.1 - (em.1 - start) / 10) (start + 1)) frL.length) (ci + 1)
              hf hns
            have hy2 : y = (chunkLoop frL enL cap approx fuel
                (min (max (em.1 - (em.1 - start) / 10) (start + 1)) frL.length)
                (ci + 1)).headD default := by
              rw [List.headD_eq_head?, hy]
              rfl
            rw [hy2, hhd.2]
            refine ⟨?_, ?_⟩ <;> dsimp only <;> omega
    · exact List.chain'_nil

theorem chunkLoop_last (frL enL : List Str) (cap approx : Nat) :
    ∀ fuel start chunkIndex, start < frL.length → frL.length - start ≤ fuel →
      ((chunkLoop frL enL cap approx fuel start chunkIndex).getLastD
        default).sentence_end = frL.length := by
  intro fuel
  induction fuel with
  | zero => intro start ci hlen hfuel; omega
  | succ fuel ih =>
    intro start ci hlen hfuel
    simp only [chunkLoop, if_pos hlen]
    set em := takeChunkEnd frL enL cap approx start (frL.length + 1) start 0 with hem
    have hpro := takeChunkEnd_progress frL enL cap approx start (frL.length + 1)
      (by omega) hlen
    rw [← hem] at hpro
    have hbnd := takeChunkEnd_bounds frL enL cap approx start (frL.length + 1) start 0
      (by omega)
    rw [← hem] at hbnd
    have hz : ¬em.1 = start := by omega
    rw [if_neg hz]
    split
    · rename_i hend
      have hx : ∀ x : SentenceChunk, List.getLastD ([] : List SentenceChunk) x = x :=
        fun _ => rfl
      rw [List.getLastD_cons, hx]
      dsimp only
      omega
    · rename_i hend
      push_neg at hend
      have hns : min (max (em.1 - (em.1 - start) / 10) (start + 1)) frL.length
          < frL.length := by omega
      have hfz : 0 < fuel := by omega
      have hrec := ih (min (max (em.1 - (em.1 - start) / 10) (start + 1)) frL.length)
        (ci + 1) hns (by omega)
      have hne := (chunkLoop_head frL enL cap approx fuel
        (min (max (em.1 - (em.1 - start) / 10) (start + 1)) frL.length) (ci + 1)
        hfz hns).1
      rw [List.getLastD_cons, getLastD_irrel _ _ default hne]
      exact hrec

/-- C2: the claim that every produced chunk's `char_count` is at most the
supplied `max_chunk_chars` is false: a single sentence longer than the cap
is emitted alone in a chunk whose measured size exceeds the cap. -/
theorem chunk_pairs_cap_counterexample :
    c2CounterChunks.length = 1 ∧
      (c2CounterChunks.headD default).char_count = 6 ∧
      ¬((c2CounterChunks.headD default).char_count ≤ 3) := by
  refine ⟨rfl, rfl, by decide⟩

/-- C2 (amended): every chunk produced by `chunk_sentence_pairs` under a
positive supplied cap has measured size at most the cap, except a chunk
holding exactly one sentence (emitted even when that sentence alone
exceeds the cap). -/
theorem chunk_pairs_cap (frL enL0 : List Str) (maxTokens cap : Nat)
    (hcap : 0 < cap) :
    ∀ c ∈ chunk_sentence_pairs frL enL0 maxTokens (some cap),
      c.char_count ≤ cap ∨ c.french_sentences.length = 1 := by
  intro c hc
  unfold chunk_sentence_pairs at hc
  by_cases hfr : frL = []
  · rw [if_pos hfr] at hc
    exact absurd hc (List.not_mem_nil c)
  · rw [if_neg hfr] at hc
    simp only at hc
    rw [if_neg (by omega : ¬cap = 0)] at hc
    exact chunkLoop_cap _ _ _ _ _ _ _ c hc

/-- C2 amended-claim witness at a concrete input: the first chunk produced
for two 2-char sentences under cap 2 satisfies the amended cap property. -/
theorem chunk_pairs_cap_witness :
    0 < 2 ∧
      ((⟨0, 0, 1, [[]], [['a', 'b']], 2⟩ : SentenceChunk).char_count ≤ 2 ∨
        (⟨0, 0, 1, [[]], [['a', 'b']], 2⟩ :
          SentenceChunk).french_sentences.length = 1) :=
  ⟨by decide,
    chunk_pairs_cap [['a', 'b'], ['c', 'd']] [[], []] 1 2 (by decide)
      ⟨0, 0, 1, [[]], [['a', 'b']], 2⟩ (by decide)⟩

/-- C10: for every non-empty sentence list, `chunk_sentence_pairs` produces a
non-empty chunk list that covers every sentence index without gaps: the first
chunk starts at 0, every chunk is non-degenerate, each subsequent chunk starts
strictly after the previous chunk's start but no later than the previous
chunk's (exclusive) end, and the last chunk ends at the total sentence
count. -/
theorem chunk_pairs_coverage (frL enL0 : List Str) (maxTokens : Nat)
    (capOpt : Option Nat) (h : frL ≠ []) :
    chunk_sentence_pairs frL enL0 maxTokens capOpt ≠ [] ∧
      ((chunk_sentence_pairs frL enL0 maxTokens capOpt).headD default).sentence_start
        = 0 ∧
      ((chunk_sentence_pairs frL enL0 maxTokens capOpt).getLastD default).sentence_end
        = frL.length ∧
      List.Chain'
        (fun a b => a.sentence_start < b.sentence_start ∧ b.sentence_start ≤ a.sentence_end)
        (chunk_sentence_pairs frL enL0 maxTokens capOpt) ∧
      ∀ c ∈ chunk_sentence_pairs frL enL0 maxTokens capOpt,
        c.sentence_start < c.sentence_end := by
  have hlen : 0 < frL.length := List.length_pos.2 h
  unfold chunk_sentence_pairs
  rw [if_neg h]
  refine ⟨?_, ?_, ?_, ?_, ?_⟩
  · exact (chunkLoop_head _ _ _ _ (frL.length + 1) 0 0 (by omega) hlen).1
  · exact (chunkLoop_head _ _ _ _ (frL.length + 1) 0 0 (by omega) hlen).2
  · exact chunkLoop_last _ _ _ _ (frL.length + 1) 0 0 hlen (by omega)
  · exact chunkLoop_chain _ _ _ _ (frL.length + 1) 0 0
  · intro c hc
    exact (chunkLoop_mem _ _ _ _ (frL.length + 1) 0 0 c hc).2.1

/-- C10 witness at a concrete input. -/
theorem chunk_pairs_coverage_witness :
    chunk_sentence_pairs [['a'], ['b']] [[], []] 1 (some 1) ≠ [] ∧
      ((chunk_sentence_pairs [['a'], ['b']] [[], []] 1 (some 1)).headD
        default).sentence_start = 0 ∧
      ((chunk_sentence_pairs [['a'], ['b']] [[], []] 1 (some 1)).getLastD
        default).sentence_end = ([['a'], ['b']] : List Str).length ∧
      List.Chain'
        (fun a b => a.sentence_start < b.sentence_start ∧ b.sentence_start ≤ a.sentence_end)
        (chunk_sentence_pairs [['a'], ['b']] [[], []] 1 (some 1)) ∧
      ∀ c ∈ chunk_sentence_pairs [['a'], ['b']] [[], []] 1 (some 1),
        c.sentence_start < c.sentence_end :=
  chunk_pairs_coverage [['a'], ['b']] [[], []] 1 (some 1) (by decide)

/-! ### Lemmas and theorems for `translate_in_batches` (C6, C7) -/

theorem tibFlush_length (translator : List Str → List Str) (batch : List Str) :
    (tibFlush translator batch).length = batch.length := by
  simp only [tibFlush]
  split
  · rename_i h
    simp only [List.length_take, List.length_append, List.length_replicate]
    omega
  · rename_i h
    simp only [List.length_take]
    omega

theorem batchMeasured_append_one (batch : List Str) (s : Str) :
    batchMeasured (batch ++ [s]) = batchMeasured batch + max s.length 1 := by
  unfold batchMeasured
  rw [List.map_append, List.sum_append]
  rfl

theorem tibGo_batches (translator : List Str → List Str) (maxChars maxItems : Nat)
    (hmi : 1 ≤ maxItems) :
    ∀ rest batch charCount results batches,
      batch.length ≤ maxItems →
      (2 ≤ batch.length → charCount ≤ maxChars) →
      charCount = batchMeasured batch →
      (∀ b ∈ batches, b.length ≤ maxItems ∧ (2 ≤ b.length → batchMeasured b ≤ maxChars)) →
      ∀ b ∈ (tibGo translator maxChars maxItems rest batch charCount results batches).2,
        b.length ≤ maxItems ∧ (2 ≤ b.length → batchMeasured b ≤ maxChars) := by
  intro rest
  induction rest with
  | nil =>
    intro batch charCount results batches h1 h2 h3 h4 b hb
    simp only [tibGo] at hb
    split at hb
    · exact h4 b hb
    · rw [List.mem_append] at hb
      rcases hb with hb | hb
      · exact h4 b hb
      · rw [List.mem_singleton] at hb
        subst hb
        exact ⟨h1, fun h => h3 ▸ h2 h⟩
  | cons s rest ih =>
    intro batch charCount results batches h1 h2 h3 h4 b hb
    simp only [tibGo] at hb
    split at hb
    · rename_i hcond
      refine ih [s] (max s.length 1) _ _ (by simpa using hmi)
        (by intro h; simp at h) ?_ ?_ b hb
      · unfold batchMeasured
        simp
      · intro b2 hb2
        rw [List.mem_append] at hb2
        rcases hb2 with hb2 | hb2
        · exact h4 b2 hb2
        · rw [List.mem_singleton] at hb2
          subst hb2
          exact ⟨h1, fun h => h3 ▸ h2 h⟩
    · rename_i hcond
      push_neg at hcond
      by_cases hbe : batch = []
      · subst hbe
        simp only [List.nil_append] at hb
        have hc0 : charCount = 0 := by
          rw [h3]; unfold batchMeasured; simp
        subst hc0
        refine ih [s] (0 + max s.length 1) _ _ (by simpa using hmi)
          (by intro h; simp at h) ?_ h4 b hb
        unfold batchMeasured
        simp
      · have hc2 := hcond hbe
        refine ih (batch ++ [s]) (charCount + max s.length 1) _ _ ?_ ?_ ?_ h4 b hb
        · simp only [List.length_append, List.length_singleton]
          omega
        · intro _
          omega
        · rw [batchMeasured_append_one, h3]

theorem sum_length_le_batchMeasured (b : List Str) :
    (b.map List.length).sum ≤ batchMeasured b := by
  induction b with
  | nil => simp [batchMeasured]
  | cons x xs ih =>
    unfold batchMeasured at *
    simp only [List.map_cons, List.sum_cons]
    omega

/-- C6: the claim that every batch sent to the translation capability has
summed sentence length at most `max_prompt_chars` is false: a single sentence
longer than the cap is sent alone in a batch that exceeds the cap. -/
theorem translate_batches_counterexample :
    c6CounterBatches = [[['a', 'a', 'a', 'a']]] ∧
      ((c6CounterBatches.headD []).map List.length).sum = 4 ∧
      ¬((c6CounterBatches.headD []).map List.length).sum ≤ 3 :=
  ⟨rfl, rfl, by decide⟩

/-- C6 (amended): every batch `translate_in_batches` sends to the external
capability has at most `max(max_translation_sentences, 1)` sentences, and
every batch containing at least two sentences has summed character length at
most `max_prompt_chars`; a batch may exceed the character budget only when it
consists of a single sentence that alone exceeds the budget. -/
theorem translate_batches_bounded (translator : List Str → List Str)
    (maxChars maxItemsRaw : Nat) (sentences : List Str) :
    ∀ b ∈ (translate_in_batches translator maxChars maxItemsRaw sentences).2,
      b.length ≤ max maxItemsRaw 1 ∧
        (2 ≤ b.length → (b.map List.length).sum ≤ maxChars) := by
  intro b hb
  unfold translate_in_batches at hb
  split at hb
  · exact absurd hb (List.not_mem_nil b)
  · simp only at hb
    have hmain := tibGo_batches translator maxChars (max maxItemsRaw 1) (by omega)
      sentences [] 0 [] [] (by simp) (by simp) (by unfold batchMeasured; simp)
      (by intro b2 hb2; exact absurd hb2 (List.not_mem_nil b2)) b hb
    exact ⟨hmain.1, fun h => le_trans (sum_length_le_batchMeasured b) (hmain.2 h)⟩

/-- C6 amended-claim witness at a concrete input. -/
theorem translate_batches_bounded_witness :
    ([['a'], ['b']] : List (List Char)).length ≤ max 5 1 ∧
      (2 ≤ ([['a'], ['b']] : List (List Char)).length →
        (([['a'], ['b']] : List (List Char)).map List.length).sum ≤ 10) :=
  translate_batches_bounded (fun x => x) 10 5 [['a'], ['b']] [['a'], ['b']] (by decide)

theorem tibGo_results_length (translator : List Str → List Str)
    (maxChars maxItems : Nat) :
    ∀ rest batch charCount results batches,
      (tibGo translator maxChars maxItems rest batch charCount results batches).1.length
        = results.length + batch.length + rest.length := by
  intro rest
  induction rest with
  | nil =>
    intro batch charCount results batches
    simp only [tibGo]
    split
    · rename_i h
      subst h
      simp
    · simp [tibFlush_length]
  | cons s rest ih =>
    intro batch charCount results batches
    simp only [tibGo]
    split
    · rw [ih]
      simp [tibFlush_length]
      omega
    · rw [ih]
      simp
      omega

theorem tibGo_flatten (translator : List Str → List Str)
    (maxChars maxItems : Nat) :
    ∀ rest batch charCount results batches,
      (tibGo translator maxChars maxItems rest batch charCount results batches).2.flatten
        = batches.flatten ++ batch ++ rest := by
  intro rest
  induction rest with
  | nil =>
    intro batch charCount results batches
    simp only [tibGo]
    split
    · rename_i h
      subst h
      simp
    · simp [List.flatten_append]
  | cons s rest ih =>
    intro batch charCount results batches
    simp only [tibGo]
    split
    · rw [ih]
      simp [List.flatten_append]
    · rw [ih]
      simp

/-- C7: `translate_in_batches` returns exactly one translation per input
sentence (output length equals input length for every translator behaviour),
and the batches sent to the capability partition the input in order (batch
boundaries never split or reorder sentences). -/
theorem translate_in_batches_aligned (translator : List Str → List Str)
    (maxChars maxItemsRaw : Nat) (sentences : List Str) :
    (translate_in_batches translator maxChars maxItemsRaw sentences).1.length
        = sentences.length ∧
      (translate_in_batches translator maxChars maxItemsRaw sentences).2.flatten
        = sentences := by
  by_cases h : sentences = []
  · subst h
    exact ⟨rfl, rfl⟩
  · constructor
    · simp only [translate_in_batches, if_neg h]
      split
      · rename_i hlt
        simp only [List.length_take, List.length_append, List.length_replicate]
        omega
      · rename_i hge
        push_neg at hge
        simp only [List.length_take]
        omega
    · simp only [translate_in_batches, if_neg h]
      have := tibGo_flatten translator maxChars (max maxItemsRaw 1) sentences [] 0 [] []
      simpa using this

/-! ### Lemmas and theorems for `strip_headings` (C3) -/

theorem weightSum_append (a b : List Str) :
    weightSum (a ++ b) = weightSum a + weightSum b := by
  unfold weightSum
  rw [List.map_append, List.sum_append]

theorem weightSum_filter_le (p : Str → Bool) (l : List Str) :
    weightSum (l.filter p) ≤ weightSum l := by
  induction l with
  | nil => simp
  | cons x xs ih =>
    rw [List.filter_cons]
    split
    · unfold weightSum at *
      simp only [List.map_cons, List.sum_cons]
      omega
    · unfold weightSum at *
      simp only [List.map_cons, List.sum_cons]
      omega

theorem joinLines_length_eq :
    ∀ C : List Str, C ≠ [] → (joinLines C).length + 1 = weightSum C := by
  intro C
  induction C with
  | nil => intro h; exact absurd rfl h
  | cons l ls ih =>
    intro _
    cases ls with
    | nil =>
      unfold weightSum lineWeight
      simp [joinLines]
    | cons l2 ls2 =>
      have h2 := ih (by simp)
      unfold weightSum lineWeight at h2 ⊢
      simp only [joinLines, List.map_cons, List.sum_cons, List.length_append,
        List.length_cons] at h2 ⊢
      omega

theorem filter_nonblank_blank (l : Str) (h : pyStrip l = []) :
    List.filter (fun x => !(pyStrip x).isEmpty) [l] = [] := by
  simp [h]

theorem filter_nonblank_keep (l : Str) (h : ¬pyStrip l = []) :
    List.filter (fun x => !(pyStrip x).isEmpty) [l] = [l] := by
  simp [List.isEmpty_eq_false, h]

theorem stripGo_bounds :
    ∀ (lines : List Str) (pb : Bool) (offset kept : Nat) (pre : List Str),
      offset = weightSum (pre.filter (fun l => !(pyStrip l).isEmpty)) →
      kept = pre.length →
      (pb = true → pyStrip (pre.getLastD []) = []) →
      ∀ p ∈ (stripHeadingsGo pb offset kept lines).2,
        p.1.char_index ≤
            lineStart (pre ++ (stripHeadingsGo pb offset kept lines).1) p.2 ∧
          p.1.char_index ≤
            (joinLines (pre ++ (stripHeadingsGo pb offset kept lines).1)).length := by
  intro lines
  induction lines with
  | nil =>
    intro pb offset kept pre h1 h2 h3 p hp
    simp only [stripHeadingsGo, List.not_mem_nil] at hp
  | cons line rest ih =>
    intro pb offset kept pre h1 h2 h3 p hp
    simp only [stripHeadingsGo] at hp ⊢
    by_cases hblank : pyStrip line = []
    · rw [if_pos hblank] at hp ⊢
      dsimp only at hp ⊢
      have h1' : offset = weightSum ((pre ++ [line]).filter (fun l => !(pyStrip l).isEmpty)) := by
        rw [List.filter_append, weightSum_append, h1, filter_nonblank_blank line hblank]
        simp [weightSum]
      have h2' : kept + 1 = (pre ++ [line]).length := by
        simp [h2]
      have h3' : (true : Bool) = true → pyStrip ((pre ++ [line]).getLastD []) = [] := by
        intro _
        rw [List.getLastD_concat]
        exact hblank
      have := ih true offset (kept + 1) (pre ++ [line]) h1' h2' h3' p hp
      rwa [List.append_assoc, List.singleton_append] at this
    · rw [if_neg hblank] at hp ⊢
      by_cases hcond : (pb && nextIsBlank rest && looks_like_heading line) = true
      · rw [if_pos hcond] at hp ⊢
        dsimp only at hp ⊢
        rw [List.mem_cons] at hp
        rcases hp with hp | hp
        · subst hp
          dsimp only
          constructor
          · rw [h2, lineStart, List.take_left, h1]
            exact weightSum_filter_le _ _
          · rcases List.eq_nil_or_concat pre with hpre | ⟨pre', a, hpre⟩
            · subst hpre
              simp only [List.filter_nil] at h1
              rw [h1]
              simp [weightSum]
            · subst hpre
              have hpb : pb = true := by
                simp only [Bool.and_eq_true] at hcond
                exact hcond.1.1
              have hlast : pyStrip a = [] := by
                have := h3 hpb
                rw [List.concat_eq_append, List.getLastD_concat] at this
                exact this
              have hoff : offset ≤ weightSum pre' := by
                rw [h1, List.concat_eq_append, List.filter_append,
                  filter_nonblank_blank a hlast, List.append_nil]
                exact weightSum_filter_le _ _
              have hne : (pre'.concat a ++
                  (stripHeadingsGo false offset kept rest).1) ≠ [] := by
                simp [List.concat_eq_append]
              have hjoin := joinLines_length_eq _ hne
              rw [List.concat_eq_append, List.append_assoc, weightSum_append,
                weightSum_append] at hjoin
              have hwa : 1 ≤ weightSum [a] := by
                unfold weightSum lineWeight
                simp
              rw [List.concat_eq_append, List.append_assoc]
              omega
        · have h3' : (false : Bool) = true → pyStrip (pre.getLastD []) = [] := by
            intro h
            exact absurd h (by simp)
          exact ih false offset kept pre h1 h2 h3' p hp
      · rw [if_neg hcond] at hp ⊢
        dsimp only at hp ⊢
        have h1' : offset + line.length + 1
            = weightSum ((pre ++ [line]).filter (fun l => !(pyStrip l).isEmpty)) := by
          rw [List.filter_append, weightSum_append, h1, filter_nonblank_keep line hblank]
          unfold weightSum lineWeight
          simp only [List.map_cons, List.map_nil, List.sum_cons, List.sum_nil]
          omega
        have h2' : kept + 1 = (pre ++ [line]).length := by
          simp [h2]
        have h3' : (false : Bool) = true → pyStrip ((pre ++ [line]).getLastD []) = [] := by
          intro h
          exact absurd h (by simp)
        have := ih false (offset + line.length + 1) (kept + 1) (pre ++ [line]) h1' h2' h3' p hp
        rwa [List.append_assoc, List.singleton_append] at this

/-- C3 (amended): every `HeadingInfo.char_index` recorded by `strip_headings`
equals the cumulative weight (`len + 1` each) of the *non-blank* lines
retained before the heading.  Consequently it is a lower bound for the
cleaned-text offset at which the first retained line after the heading
begins (cleaned line index `k` in the instrumented run), and it never
exceeds the length of the cleaned text.  It is not in general *equal* to the
offset of the first retained line after the heading, because blank retained
lines occupy the cleaned text without advancing `output_offset`. -/
theorem strip_headings_char_index_bounds (text : Str) :
    (∀ info ∈ (strip_headings text).2,
      info.char_index ≤ (strip_headings text).1.length) ∧
      (∀ p ∈ (stripHeadingsGo true 0 0 (pySplitlines text)).2,
        p.1.char_index ≤ lineStart ((stripHeadingsGo true 0 0 (pySplitlines text)).1) p.2 ∧
          p.1.char_index ≤
            (joinLines ((stripHeadingsGo true 0 0 (pySplitlines text)).1)).length) := by
  have hmain := stripGo_bounds (pySplitlines text) true 0 0 []
    (by simp [weightSum]) rfl (by intro _; rfl)
  simp only [List.nil_append] at hmain
  constructor
  · intro info hinfo
    by_cases ht : text = []
    · subst ht
      simp [strip_headings] at hinfo
    · simp only [strip_headings, if_neg ht] at hinfo ⊢
      rw [List.mem_map] at hinfo
      obtain ⟨p, hp, rfl⟩ := hinfo
      exact (hmain p hp).2
  · exact hmain

/-- C3 counterexample: on `c3Text` the removed heading carries
`char_index = 2`, but the first retained line after the heading (cleaned line
index 2) begins at cleaned-text offset 3 — the blank retained line before the
heading occupies the cleaned output without advancing `output_offset`, so
`char_index` is not the offset at which the first retained line after the
heading begins. -/
theorem strip_headings_offset_counterexample :
    (strip_headings c3Text).2 = [⟨"CHAPTER ONE".toList, 2⟩] ∧
      (strip_headings c3Text).1 = "a\n\n\nb".toList ∧
      (stripHeadingsGo true 0 0 (pySplitlines c3Text)).2
        = [(⟨"CHAPTER ONE".toList, 2⟩, 2)] ∧
      lineStart ((stripHeadingsGo true 0 0 (pySplitlines c3Text)).1) 2 = 3 ∧
      (2 : Nat) ≠ 3 :=
  ⟨rfl, rfl, rfl, rfl, by decide⟩

/-- C3 amended-claim witness at a concrete input. -/
theorem strip_headings_char_index_bounds_witness :
    (2 : Nat) ≤ (strip_headings c3Text).1.length ∧
      (2 : Nat) ≤ lineStart ((stripHeadingsGo true 0 0 (pySplitlines c3Text)).1) 2 :=
  ⟨(strip_headings_char_index_bounds c3Text).1 ⟨"CHAPTER ONE".toList, 2⟩ (by decide),
    ((strip_headings_char_index_bounds c3Text).2 (⟨"CHAPTER ONE".toList, 2⟩, 2)
      (by decide)).1⟩

/-! ### Lemmas and theorems for the cap-halving loop (C9) -/

theorem rebalanceLoop_caps_ge (B floor : Nat) (slcs : List SentenceSlice)
    (trs : List Str) (content : Str) :
    ∀ fuel cap segs,
      ((rebalanceLoop B floor slcs trs content fuel cap segs).2.all
        (fun c => decide (floor ≤ c))) = true := by
  intro fuel
  induction fuel with
  | zero => intro cap segs; rfl
  | succ fuel ih =>
    intro cap segs
    simp only [rebalanceLoop]
    split
    · split
      · simp
      · simp only [List.all_cons, Bool.and_eq_true, decide_eq_true_eq]
        exact ⟨le_max_right _ _, ih _ _⟩
    · rfl

theorem rebalanceLoop_len (B floor : Nat) (slcs : List SentenceSlice)
    (trs : List Str) (content : Str) :
    ∀ fuel cap segs,
      (rebalanceLoop B floor slcs trs content fuel cap segs).2.length
        ≤ capHalvings floor cap := by
  intro fuel
  induction fuel with
  | zero => intro cap segs; simp [rebalanceLoop]
  | succ fuel ih =>
    intro cap segs
    simp only [rebalanceLoop]
    split
    · rename_i hcond
      rw [Bool.and_eq_true, decide_eq_true_eq] at hcond
      have hcap : ¬cap ≤ floor := by omega
      rw [capHalvings, if_neg hcap]
      split
      · simp
      · simp only [List.length_cons]
        have := ih (max (cap / 2) floor) (build_prompt_segments slcs trs (max (cap / 2) floor))
        omega
    · simp

theorem rebalanceLoop_fuel_stable (B floor : Nat) (slcs : List SentenceSlice)
    (trs : List Str) (content : Str) :
    ∀ n fuel fuel2 cap segs, cap - floor ≤ n → cap - floor < fuel →
      cap - floor < fuel2 →
      rebalanceLoop B floor slcs trs content fuel cap segs
        = rebalanceLoop B floor slcs trs content fuel2 cap segs := by
  intro n
  induction n with
  | zero =>
    intro fuel fuel2 cap segs hn hf hf2
    cases fuel with
    | zero => omega
    | succ fuel =>
      cases fuel2 with
      | zero => omega
      | succ fuel2 =>
        simp only [rebalanceLoop]
        have hcap : decide (floor < cap) = false := by
          simp only [decide_eq_false_iff_not]
          omega
        rw [hcap]
        simp
  | succ n ih =>
    intro fuel fuel2 cap segs hn hf hf2
    cases fuel with
    | zero => omega
    | succ fuel =>
      cases fuel2 with
      | zero => omega
      | succ fuel2 =>
        simp only [rebalanceLoop]
        split
        · rename_i hcond
          rw [Bool.and_eq_true, decide_eq_true_eq] at hcond
          split
          · rfl
          · have hrec := ih fuel fuel2 (max (cap / 2) floor)
              (build_prompt_segments slcs trs (max (cap / 2) floor))
              (by omega) (by omega) (by omega)
            rw [hrec]
        · rfl

/-- C9: the adaptive cap-halving rebalancing loop terminates — the fuel
`cap0 + 1` used by `rebalanceScene` is sufficient (adding any extra fuel does
not change the result), the number of regrouping iterations is bounded by the
number of halvings from the initial cap down to the floor, and every
effective cap the loop passes to `build_prompt_segments` is at least the
floor `max(128, initial_cap // 8)`. -/
theorem rebalance_caps (B : Nat) (slcs : List SentenceSlice) (trs : List Str)
    (content : Str) :
    ((rebalanceScene B slcs trs content).2.all
        (fun c => decide (max 128 (max B 1 / 8) ≤ c))) = true ∧
      (rebalanceScene B slcs trs content).2.length
        ≤ capHalvings (max 128 (max B 1 / 8)) (max B 1) ∧
      ∀ extra : Nat,
        rebalanceLoop B (max 128 (max B 1 / 8)) slcs trs content
            (max B 1 + 1 + extra) (max B 1) (build_prompt_segments slcs trs (max B 1))
          = rebalanceLoop B (max 128 (max B 1 / 8)) slcs trs content
            (max B 1 + 1) (max B 1) (build_prompt_segments slcs trs (max B 1)) := by
  refine ⟨?_, ?_, ?_⟩
  · simp only [rebalanceScene]
    split
    · rfl
    · exact rebalanceLoop_caps_ge _ _ _ _ _ _ _ _
  · simp only [rebalanceScene]
    split
    · simp
    · exact rebalanceLoop_len _ _ _ _ _ _ _ _
  · intro extra
    exact rebalanceLoop_fuel_stable B (max 128 (max B 1 / 8)) slcs trs content
      (max B 1) _ _ _ _ (by omega) (by omega) (by omega)

/-! ### Lemmas for the scene reconciler and merger (C1, C5, C8) -/

theorem snapBack_spec (slices : List SentenceSlice) (para : Nat) :
    ∀ i, paraAt slices i = para →
      snapBack slices para i ≤ i ∧ paraAt slices (snapBack slices para i) = para ∧
        ParaInit slices (snapBack slices para i) := by
  intro i
  induction i with
  | zero => intro h; exact ⟨le_refl _, h, Or.inl rfl⟩
  | succ i ih =>
    intro h
    simp only [snapBack]
    split
    · rename_i hp
      have := ih hp
      exact ⟨by omega, this.2.1, this.2.2⟩
    · rename_i hp
      refine ⟨le_refl _, h, Or.inr ?_⟩
      intro heq
      rw [Nat.add_sub_cancel] at heq
      rw [heq] at hp
      exact hp h

theorem snapFwd_spec (slices : List SentenceSlice) (para : Nat) :
    ∀ fuel i, paraAt slices i = para → i < slices.length →
      slices.length - i ≤ fuel →
      i ≤ snapFwd slices para fuel i ∧ snapFwd slices para fuel i < slices.length ∧
        paraAt slices (snapFwd slices para fuel i) = para ∧
        ParaFin slices (snapFwd slices para fuel i) := by
  intro fuel
  induction fuel with
  | zero => intro i h hlen hf; omega
  | succ fuel ih =>
    intro i h hlen hf
    simp only [snapFwd]
    split
    · rename_i hc
      have := ih (i + 1) hc.2 hc.1 (by omega)
      exact ⟨by omega, this.2.1, this.2.2.1, this.2.2.2⟩
    · rename_i hc
      refine ⟨le_refl _, hlen, h, ?_⟩
      unfold ParaFin
      by_cases h1 : i + 1 < slices.length
      · right
        intro heq
        exact hc ⟨h1, by rw [heq, h]⟩
      · left
        omega

theorem reconcileAccept_inv (slices : List SentenceSlice) (bookText : Str)
    (st : RecState) (p : Proposal) (gs ge : Nat)
    (hinv : RecInv slices st)
    (hgs : st.lastEnd < (gs : Int))
    (hge : gs ≤ ge) (hlen : ge < slices.length)
    (hpi : ParaInit slices gs) (hpf : ParaFin slices ge) :
    RecInv slices (reconcileAccept slices bookText st p gs ge) := by
  simp only [reconcileAccept]
  split
  · exact hinv
  · obtain ⟨hchain, hall, hlast⟩ := hinv
    unfold RecInv
    dsimp only
    refine ⟨?_, ?_, ?_⟩
    · refine List.Chain'.append hchain (List.chain'_singleton _) ?_
      intro x hx y hy
      have hxmem : x ∈ st.raw := List.mem_of_mem_getLast? hx
      have hxend := (hall x hxmem).2
      have hyeq : y = (⟨p.title, p.summary,
          pyStrip (pySlice bookText (slices.getD gs default).start
            (slices.getD ge default).stop), gs, ge,
          p.continues_from_previous, p.continues_to_next⟩ : RawScene) := by
        symm
        simpa using hy
      subst hyeq
      show x.sentence_end < gs
      omega
    · intro r hr
      rw [List.mem_append] at hr
      rcases hr with hr | hr
      · obtain ⟨hok, hend⟩ := hall r hr
        exact ⟨hok, by omega⟩
      · rw [List.mem_singleton] at hr
        subst hr
        refine ⟨⟨hge, hlen, hpi, hpf⟩, ?_⟩
        dsimp only
        omega
    · right
      by_cases hc : st.lastEnd ≤ (ge : Int)
      · refine ⟨by omega, by omega, ?_⟩
        have : (max st.lastEnd (ge : Int)).toNat = ge := by omega
        rw [this]
        exact hpf
      · rcases hlast with hm1 | ⟨hm0, hmlt, hmf⟩
        · omega
        · refine ⟨by omega, by omega, ?_⟩
          have : (max st.lastEnd (ge : Int)).toNat = st.lastEnd.toNat := by omega
          rw [this]
          exact hmf

theorem reconcileProposal_inv (slices : List SentenceSlice) (bookText : Str)
    (chunkStart sentenceCount : Nat) (st : RecState) (p : Proposal)
    (hinv : RecInv slices st) :
    RecInv slices (reconcileProposal slices bookText chunkStart sentenceCount st p) := by
  unfold reconcileProposal
  cases p.start_sentence_index with
  | none => exact hinv
  | some startIndex =>
    cases p.end_sentence_index with
    | none => exact hinv
    | some endIndex =>
      dsimp only
      split
      · exact hinv
      · rename_i hok
        push_neg at hok
        split
        · exact hinv
        · rename_i hlen
          push_neg at hlen
          have hso : (0 : Int) ≤ startIndex - 1 := hok.1
          have hse : startIndex - 1 ≤ endIndex - 1 := hok.2.1
          have hgsle : chunkStart + (startIndex - 1).toNat
              ≤ chunkStart + (endIndex - 1).toNat := by omega
          have hsb := snapBack_spec slices
            (paraAt slices (chunkStart + (startIndex - 1).toNat))
            (chunkStart + (startIndex - 1).toNat) rfl
          have hsf := snapFwd_spec slices
            (paraAt slices (chunkStart + (endIndex - 1).toNat))
            slices.length (chunkStart + (endIndex - 1).toNat) rfl hlen (by omega)
          split
          · rename_i hhw
            split
            · exact hinv
            · rename_i hge2
              push_neg at hge2
              have h0le : (0 : Int) ≤ st.lastEnd := by
                have : (0 : Int) ≤ (snapBack slices
                    (paraAt slices (chunkStart + (startIndex - 1).toNat))
                    (chunkStart + (startIndex - 1).toNat) : Int) := by omega
                omega
              have hlast := hinv.2.2
              rcases hlast with hm1 | ⟨hm0, hmlt, hmf⟩
              · omega
              · have hgseq : ((st.lastEnd + 1).toNat : Int) = st.lastEnd + 1 := by
                  omega
                refine reconcileAccept_inv slices bookText st p _ _ hinv
                  (by omega) hge2 hsf.2.1 ?_ hsf.2.2.2
                have hgn : (st.lastEnd + 1).toNat = st.lastEnd.toNat + 1 := by omega
                rw [hgn]
                rcases hmf with hmf | hmf
                · exfalso
                  have := hsf.2.1
                  omega
                · exact Or.inr (by
                    rw [Nat.add_sub_cancel]
                    exact fun heq => hmf (heq.symm ▸ rfl) )
          · rename_i hhw
            push_neg at hhw
            exact reconcileAccept_inv slices bookText st p _ _ hinv hhw
              (le_trans (le_trans hsb.1 hgsle) hsf.1) hsf.2.1 hsb.2.2 hsf.2.2.2

theorem reconcileAll_inv (slices : List SentenceSlice) (bookText : Str)
    (chunks : List ChunkInput) :
    RecInv slices (reconcileAll slices bookText chunks) := by
  have hfold : ∀ (ps : List Proposal) (cs sc : Nat) (st : RecState),
      RecInv slices st →
      RecInv slices (ps.foldl (reconcileProposal slices bookText cs sc) st) := by
    intro ps
    induction ps with
    | nil => intro cs sc st h; exact h
    | cons p ps ih =>
      intro cs sc st h
      exact ih cs sc _ (reconcileProposal_inv slices bookText cs sc st p h)
  have hchunks : ∀ (cl : List ChunkInput) (st : RecState),
      RecInv slices st →
      RecInv slices (cl.foldl (reconcileChunk slices bookText) st) := by
    intro cl
    induction cl with
    | nil => intro st h; exact h
    | cons ch cl ih =>
      intro st h
      exact ih _ (hfold ch.proposals ch.sentenceStart ch.sentenceCount st h)
  refine hchunks chunks ⟨none, -1, []⟩ ?_
  refine ⟨List.chain'_nil, ?_, Or.inl rfl⟩
  intro r hr
  exact absurd hr (List.not_mem_nil r)

theorem rawChain_head_lt (c : RawScene) (rest : List RawScene)
    (hch : List.Chain' (fun a b => a.sentence_end < b.sentence_start) (c :: rest))
    (hse : ∀ r ∈ c :: rest, r.sentence_start ≤ r.sentence_end) :
    ∀ r ∈ rest, c.sentence_end < r.sentence_start := by
  induction rest generalizing c with
  | nil => intro r hr; exact absurd hr (List.not_mem_nil r)
  | cons d rest ih =>
    intro r hr
    rw [List.chain'_cons] at hch
    rcases List.mem_cons.1 hr with rfl | hr2
    · exact hch.1
    · have hd := ih d hch.2
        (by intro x hx; exact hse x (List.mem_cons.2 (Or.inr hx))) r hr2
      have h1 : c.sentence_end < d.sentence_start := hch.1
      have h2 : d.sentence_start ≤ d.sentence_end := hse d (by simp)
      omega

theorem getLastD_mem {α : Type} [Inhabited α] (l : List α) (h : l ≠ []) :
    l.getLastD default ∈ l := by
  rw [List.getLastD_eq_getLast?, List.getLast?_eq_getLast l h, Option.getD_some]
  exact List.getLast_mem h

theorem dropLast_append_getLastD {α : Type} [Inhabited α] (l : List α) (h : l ≠ []) :
    l.dropLast ++ [l.getLastD default] = l := by
  rw [List.getLastD_eq_getLast?, List.getLast?_eq_getLast l h, Option.getD_some]
  exact List.dropLast_append_getLast h

theorem mergeStep_inv (slices : List SentenceSlice) (bookText : Str)
    (ms : MergeState) (c : RawScene) (rest : List RawScene)
    (hinv : MergeInv slices ms (c :: rest))
    (hch : List.Chain' (fun a b => a.sentence_end < b.sentence_start) (c :: rest))
    (hok : ∀ r ∈ c :: rest, r.sentence_start ≤ r.sentence_end ∧
      ParaInit slices r.sentence_start ∧ ParaFin slices r.sentence_end) :
    MergeInv slices (mergeStep slices bookText ms c) rest := by
  obtain ⟨hmch, hmok, hlt⟩ := hinv
  have hcok := hok c (by simp)
  have hrest_lt : ∀ r ∈ rest, c.sentence_end < r.sentence_start :=
    rawChain_head_lt c rest hch (fun r hr => (hok r hr).1)
  simp only [mergeStep]
  split
  · rename_i hcont
    obtain ⟨hne, hcp⟩ := hcont
    have hlmem : ms.merged.getLastD default ∈ ms.merged := getLastD_mem _ hne
    have hlast_lt_c : (ms.merged.getLastD default).sentence_end < c.sentence_start :=
      hlt _ hlmem c (by simp)
    have hlok := hmok _ hlmem
    have hcs : min (ms.merged.getLastD default).sentence_start c.sentence_start
        = (ms.merged.getLastD default).sentence_start := by omega
    have hce : max (ms.merged.getLastD default).sentence_end c.sentence_end
        = c.sentence_end := by omega
    have hdecomp := dropLast_append_getLastD ms.merged hne
    have hdch := hmch
    rw [← hdecomp, List.chain'_append] at hdch
    unfold MergeInv
    dsimp only
    refine ⟨?_, ?_, ?_⟩
    · refine List.Chain'.append hdch.1 (List.chain'_singleton _) ?_
      intro x hx y hy
      have hy2 : y = (⟨(ms.merged.getLastD default).title,
          combineSummaries (ms.merged.getLastD default).summary c.summary,
          pyStrip (pySlice bookText
            (slices.getD (min (ms.merged.getLastD default).sentence_start
              c.sentence_start) default).start
            (slices.getD (max (ms.merged.getLastD default).sentence_end
              c.sentence_end) default).stop),
          min (ms.merged.getLastD default).sentence_start c.sentence_start,
          max (ms.merged.getLastD default).sentence_end c.sentence_end,
          pyNormalize (pyStrip (pySlice bookText
            (slices.getD (min (ms.merged.getLastD default).sentence_start
              c.sentence_start) default).start
            (slices.getD (max (ms.merged.getLastD default).sentence_end
              c.sentence_end) default).stop))⟩ : MergedScene) := by
        symm
        simpa using hy
      subst hy2
      have hxl := hdch.2.2 x hx (ms.merged.getLastD default) (by simp)
      show x.sentence_end
          < min (ms.merged.getLastD default).sentence_start c.sentence_start
      omega
    · intro m hm
      rw [List.mem_append] at hm
      rcases hm with hm | hm
      · exact hmok m (List.mem_of_mem_dropLast hm)
      · rw [List.mem_singleton] at hm
        subst hm
        refine ⟨by dsimp only; omega, ?_, ?_⟩
        · show ParaInit slices
            (min (ms.merged.getLastD default).sentence_start c.sentence_start)
          rw [hcs]
          exact hlok.2.1
        · show ParaFin slices
            (max (ms.merged.getLastD default).sentence_end c.sentence_end)
          rw [hce]
          exact (hcok.2.2)
    · intro m hm r hr
      rw [List.mem_append] at hm
      rcases hm with hm | hm
      · exact hlt m (List.mem_of_mem_dropLast hm) r (List.mem_cons_of_mem c hr)
      · rw [List.mem_singleton] at hm
        subst hm
        show max (ms.merged.getLastD default).sentence_end c.sentence_end
            < r.sentence_start
        have := hrest_lt r hr
        omega
  · split
    · exact ⟨hmch, hmok, fun m hm r hr => hlt m hm r (List.mem_cons_of_mem c hr)⟩
    · unfold MergeInv
      dsimp only
      refine ⟨?_, ?_, ?_⟩
      · refine List.Chain'.append hmch (List.chain'_singleton _) ?_
        intro x hx y hy
        have hy2 : y = (⟨c.title, c.summary, c.content, c.sentence_start,
            c.sentence_end, pyNormalize c.content⟩ : MergedScene) := by
          symm
          simpa using hy
        subst hy2
        exact hlt x (List.mem_of_mem_getLast? hx) c (by simp)
      · intro m hm
        rw [List.mem_append] at hm
        rcases hm with hm | hm
        · exact hmok m hm
        · rw [List.mem_singleton] at hm
          subst hm
          exact hcok
      · intro m hm r hr
        rw [List.mem_append] at hm
        rcases hm with hm | hm
        · exact hlt m hm r (List.mem_cons_of_mem c hr)
        · rw [List.mem_singleton] at hm
          subst hm
          exact hrest_lt r hr

theorem mergeFold_inv (slices : List SentenceSlice) (bookText : Str) :
    ∀ (raw : List RawScene) (ms : MergeState),
      MergeInv slices ms raw →
      List.Chain' (fun a b => a.sentence_end < b.sentence_start) raw →
      (∀ r ∈ raw, r.sentence_start ≤ r.sentence_end ∧
        ParaInit slices r.sentence_start ∧ ParaFin slices r.sentence_end) →
      MergeInv slices (raw.foldl (mergeStep slices bookText) ms) [] := by
  intro raw
  induction raw with
  | nil => intro ms h _ _; exact h
  | cons c rest ih =>
    intro ms h hch hok
    refine ih _ (mergeStep_inv slices bookText ms c rest h hch hok) ?_ ?_
    · exact (List.chain'_cons'.1 hch).2
    · intro r hr
      exact hok r (List.mem_cons_of_mem c hr)

/-- C1: accepted scenes never overlap and are monotone — for every ingestion
run (arbitrary slices, cleaned text, and per-chunk classifier proposals) and
every pair of consecutive accepted scenes `A`, `B` after reconciliation and
merging, `B.sentence_start > A.sentence_end`.  The running high-water mark
and the continuation-merge range unions preserve the invariant over the final
scene sequence. -/
theorem ingest_scenes_no_overlap (slices : List SentenceSlice) (bookText : Str)
    (chunks : List ChunkInput) :
    List.Chain' (fun A B => A.sentence_end < B.sentence_start)
      (ingestScenes slices bookText chunks) := by
  obtain ⟨hch, hall, _⟩ := reconcileAll_inv slices bookText chunks
  have hfold := mergeFold_inv slices bookText
    (reconcileAll slices bookText chunks).raw ⟨[], []⟩
    ⟨List.chain'_nil,
      fun m hm => absurd hm (List.not_mem_nil m),
      fun m hm => absurd hm (List.not_mem_nil m)⟩
    hch
    (fun r hr => ⟨(hall r hr).1.1, (hall r hr).1.2.2.1, (hall r hr).1.2.2.2⟩)
  exact hfold.1

/-- C5: accepted scene boundaries never split a paragraph — for every scene
in the final accepted sequence (including scenes whose start was advanced
past the high-water mark and scenes produced by continuation merging),
`sentence_start` is 0 or starts a new paragraph, and `sentence_end` is the
last global sentence index or ends its paragraph. -/
theorem ingest_scenes_paragraph_safe (slices : List SentenceSlice)
    (bookText : Str) (chunks : List ChunkInput) :
    ∀ sc ∈ ingestScenes slices bookText chunks,
      ParaInit slices sc.sentence_start ∧ ParaFin slices sc.sentence_end := by
  obtain ⟨hch, hall, _⟩ := reconcileAll_inv slices bookText chunks
  have hfold := mergeFold_inv slices bookText
    (reconcileAll slices bookText chunks).raw ⟨[], []⟩
    ⟨List.chain'_nil,
      fun m hm => absurd hm (List.not_mem_nil m),
      fun m hm => absurd hm (List.not_mem_nil m)⟩
    hch
    (fun r hr => ⟨(hall r hr).1.1, (hall r hr).1.2.2.1, (hall r hr).1.2.2.2⟩)
  intro sc hsc
  exact ⟨(hfold.2.1 sc hsc).2.1, (hfold.2.1 sc hsc).2.2⟩

/-- C5 witness at a concrete ingestion run. -/
theorem ingest_scenes_paragraph_safe_witness :
    ParaInit c8Slices
        ((ingestScenes c8Slices c8Book c8Chunks).getD 0 default).sentence_start ∧
      ParaFin c8Slices
        ((ingestScenes c8Slices c8Book c8Chunks).getD 0 default).sentence_end :=
  ingest_scenes_paragraph_safe c8Slices c8Book c8Chunks
    ((ingestScenes c8Slices c8Book c8Chunks).getD 0 default) (by decide)

/-! ### C8: duplicate rejection in the merge pass -/

theorem mergeStep_seen_mono (slices : List SentenceSlice) (bookText : Str)
    (st : MergeState) (c : RawScene)
    (hc : c.continues_from_previous = false) :
    ∀ n ∈ st.seen, n ∈ (mergeStep slices bookText st c).seen := by
  intro n hn
  simp only [mergeStep]
  split
  · rename_i hcont
    rw [hc] at hcont
    exact absurd hcont.2 (by simp)
  · split
    · exact hn
    · show n ∈ addSeen (pyNormalize c.content) st.seen
      unfold addSeen
      split
      · exact hn
      · exact List.mem_cons_of_mem _ hn

theorem mergeStep_seen_adds (slices : List SentenceSlice) (bookText : Str)
    (st : MergeState) (c : RawScene)
    (hc : c.continues_from_previous = false) :
    pyNormalize c.content ∈ (mergeStep slices bookText st c).seen := by
  simp only [mergeStep]
  split
  · rename_i hcont
    rw [hc] at hcont
    exact absurd hcont.2 (by simp)
  · split
    · rename_i hdup
      exact hdup
    · show pyNormalize c.content ∈ addSeen (pyNormalize c.content) st.seen
      unfold addSeen
      split
      · rename_i h
        exact h
      · exact List.mem_cons_self _ _

theorem mergeStep_skip (slices : List SentenceSlice) (bookText : Str)
    (st : MergeState) (c : RawScene)
    (hc : c.continues_from_previous = false)
    (hmem : pyNormalize c.content ∈ st.seen) :
    mergeStep slices bookText st c = st := by
  simp only [mergeStep]
  rw [if_neg (by rw [hc]; exact fun h => absurd h.2 (by simp)), if_pos hmem]

theorem mergeFold_seen_mono (slices : List SentenceSlice) (bookText : Str) :
    ∀ (l : List RawScene) (st : MergeState),
      (∀ c ∈ l, c.continues_from_previous = false) →
      ∀ n ∈ st.seen, n ∈ (l.foldl (mergeStep slices bookText) st).seen := by
  intro l
  induction l with
  | nil => intro st _ n hn; exact hn
  | cons c rest ih =>
    intro st hal n hn
    exact ih _ (fun d hd => hal d (List.mem_cons_of_mem c hd)) n
      (mergeStep_seen_mono slices bookText st c (hal c (by simp)) n hn)

/-- C8 (amended): in the deduplication/merge pass, whenever two reconciled
candidates at positions `i < j` have identical whitespace-normalized content,
neither is marked `continues_from_previous`, and *no continuation-marked
candidate lies strictly between them*, the later candidate is rejected as a
pure duplicate: processing it leaves the merge state (accepted scenes and
seen set) unchanged.  Without the no-intervening-continuation condition the
claim fails (see the counterexample), because a continuation merge replaces
the earlier scene's normalized content in the seen set. -/
theorem merge_dedup_amended (slices : List SentenceSlice) (bookText : Str)
    (raw : List RawScene) (i j : Nat) (hij : i < j) (hj : j < raw.length)
    (heq : pyNormalize (raw.getD i default).content
      = pyNormalize (raw.getD j default).content)
    (hi : (raw.getD i default).continues_from_previous = false)
    (hjc : (raw.getD j default).continues_from_previous = false)
    (hbetween : ∀ c ∈ ((raw.drop (i + 1)).take (j - (i + 1))),
      c.continues_from_previous = false) :
    (raw.take (j + 1)).foldl (mergeStep slices bookText) ⟨[], []⟩
      = (raw.take j).foldl (mergeStep slices bookText) ⟨[], []⟩ := by
  have hi_lt : i < raw.length := lt_trans hij hj
  have htake_i : raw.take (i + 1) = raw.take i ++ [raw.getD i default] := by
    rw [List.take_succ]
    congr 1
    rw [List.getElem?_eq_getElem hi_lt]
    simp [List.getD, List.getElem?_eq_getElem hi_lt]
  have htake_j : raw.take j = raw.take (i + 1) ++ (raw.drop (i + 1)).take (j - (i + 1)) := by
    rw [← List.take_add]
    congr 1
    omega
  have htake_j1 : raw.take (j + 1) = raw.take j ++ [raw.getD j default] := by
    rw [List.take_succ]
    congr 1
    rw [List.getElem?_eq_getElem hj]
    simp [List.getD, List.getElem?_eq_getElem hj]
  have hseen_i : pyNormalize (raw.getD i default).content
      ∈ ((raw.take (i + 1)).foldl (mergeStep slices bookText) ⟨[], []⟩).seen := by
    rw [htake_i, List.foldl_append]
    exact mergeStep_seen_adds slices bookText _ _ hi
  have hseen_j : pyNormalize (raw.getD j default).content
      ∈ ((raw.take j).foldl (mergeStep slices bookText) ⟨[], []⟩).seen := by
    rw [← heq, htake_j, List.foldl_append]
    exact mergeFold_seen_mono slices bookText _ _ hbetween _ hseen_i
  rw [htake_j1, List.foldl_append]
  exact mergeStep_skip slices bookText _ _ hjc hseen_j

/-- C8 counterexample: a full ingestion run on `c8Slices`/`c8Book`/`c8Chunks`
produces three reconciled candidates; the first and third have identical
normalized content (`"Hello world."`) and neither is continuation-marked,
yet the final accepted list holds **two** scenes and the third candidate was
appended (its range `[2,2]` appears as the second accepted scene): the
intervening continuation merge replaced the earlier scene's normalized
content, so the later exact duplicate was *not* rejected. -/
theorem merge_dedup_counterexample :
    (reconcileAll c8Slices c8Book c8Chunks).raw.length = 3 ∧
      pyNormalize ((reconcileAll c8Slices c8Book c8Chunks).raw.getD 0 default).content
        = pyNormalize ((reconcileAll c8Slices c8Book c8Chunks).raw.getD 2 default).content ∧
      ((reconcileAll c8Slices c8Book c8Chunks).raw.getD 0
        default).continues_from_previous = false ∧
      ((reconcileAll c8Slices c8Book c8Chunks).raw.getD 2
        default).continues_from_previous = false ∧
      (ingestScenes c8Slices c8Book c8Chunks).length = 2 ∧
      ((ingestScenes c8Slices c8Book c8Chunks).getD 1 default).sentence_start = 2 ∧
      ((ingestScenes c8Slices c8Book c8Chunks).getD 1 default).sentence_end = 2 :=
  ⟨rfl, rfl, rfl, rfl, rfl, rfl, rfl⟩

/-- C8 amended-claim witness: two immediately adjacent duplicate candidates,
no continuation between them — the second is rejected and the state is
unchanged. -/
theorem merge_dedup_amended_witness :
    (([⟨none, none, "Hi.".toList, 0, 0, false, false⟩,
        ⟨none, none, "Hi.".toList, 2, 2, false, false⟩] : List RawScene).take 2).foldl
          (mergeStep c8Slices c8Book) ⟨[], []⟩
      = (([⟨none, none, "Hi.".toList, 0, 0, false, false⟩,
        ⟨none, none, "Hi.".toList, 2, 2, false, false⟩] : List RawScene).take 1).foldl
          (mergeStep c8Slices c8Book) ⟨[], []⟩ :=
  merge_dedup_amended c8Slices c8Book
    [⟨none, none, "Hi.".toList, 0, 0, false, false⟩,
      ⟨none, none, "Hi.".toList, 2, 2, false, false⟩]
    0 1 (by decide) (by decide) (by decide) (by decide) (by decide)
    (by intro c hc; exact absurd hc (List.not_mem_nil c))

/-! ### Occurrence toolkit and `pyFind` correctness (for C4) -/

theorem occursAt_le {s sub : Str} {i : Nat} (h : occursAt s sub i)
    (hne : sub ≠ []) : i + sub.length ≤ s.length := by
  unfold occursAt at h
  have hlen := congrArg List.length h
  rw [List.length_take, List.length_drop] at hlen
  have hpos : 0 < sub.length := List.length_pos.2 hne
  omega

theorem occursAt_refl (s : Str) : occursAt s s 0 := by
  unfold occursAt
  simp

theorem occursAt_nil (s : Str) (i : Nat) : occursAt s [] i := by
  unfold occursAt
  simp

theorem occursAt_trans {s t u : Str} {i j : Nat}
    (h1 : occursAt s t i) (h2 : occursAt t u j) :
    occursAt s u (i + j) := by
  unfold occursAt at *
  have hlen2 := congrArg List.length h2
  rw [List.length_take, List.length_drop] at hlen2
  have h3 : t.drop j = ((s.drop i).drop j).take (t.length - j) := by
    have h4 := List.drop_take t.length j (s.drop i)
    rw [h1] at h4
    exact h4
  rw [h3, List.take_take] at h2
  have hmin : min u.length (t.length - j) = u.length := by omega
  rw [hmin] at h2
  rw [← List.drop_drop]
  exact h2

theorem occursAt_append_left {s a b : Str} {i : Nat}
    (h : occursAt s (a ++ b) i) : occursAt s a i := by
  unfold occursAt at *
  rw [List.length_append] at h
  have h2 := congrArg (List.take a.length) h
  rw [List.take_take, min_eq_left (by omega), List.take_left] at h2
  exact h2

theorem occursAt_append_right {s a b : Str} {i : Nat}
    (h : occursAt s (a ++ b) i) : occursAt s b (i + a.length) := by
  unfold occursAt at *
  rw [List.length_append] at h
  have h2 := congrArg (List.drop a.length) h
  rw [List.drop_take, List.drop_left, List.drop_drop] at h2
  have harr : a.length + b.length - a.length = b.length := by omega
  rw [harr] at h2
  exact h2

theorem occursAt_append {s a b : Str} {i : Nat}
    (h1 : occursAt s a i) (h2 : occursAt s b (i + a.length)) :
    occursAt s (a ++ b) i := by
  unfold occursAt at *
  rw [← List.drop_drop] at h2
  rw [List.length_append, List.take_add, h1, h2]

theorem occursAt_slice {s sub : Str} {i : Nat} (h : occursAt s sub i) :
    pySlice s i (i + sub.length) = sub := by
  unfold occursAt at h
  unfold pySlice
  rw [List.drop_take]
  have harr : i + sub.length - i = sub.length := by omega
  rw [harr]
  exact h

theorem matchAt_true {s sub : Str} {i : Nat} :
    matchAt s sub i = true ↔ occursAt s sub i := by
  unfold matchAt
  exact decide_eq_true_iff

theorem pyFindGo_sound (s sub : Str) :
    ∀ fuel i r, pyFindGo s sub fuel i = some r →
      i ≤ r ∧ occursAt s sub r ∧ r + sub.length ≤ s.length := by
  intro fuel
  induction fuel with
  | zero => intro i r h; exact absurd h (by simp [pyFindGo])
  | succ fuel ih =>
    intro i r h
    simp only [pyFindGo] at h
    split at h
    · rename_i hb
      split at h
      · rename_i hm
        rw [Option.some_inj] at h
        subst h
        exact ⟨le_refl _, matchAt_true.1 hm, hb⟩
      · have := ih (i + 1) r h
        exact ⟨by omega, this.2⟩
    · exact absurd h (by simp)

theorem pyFindGo_min (s sub : Str) :
    ∀ fuel i r, pyFindGo s sub fuel i = some r →
      ∀ j, i ≤ j → occursAt s sub j → r ≤ j := by
  intro fuel
  induction fuel with
  | zero => intro i r h; exact absurd h (by simp [pyFindGo])
  | succ fuel ih =>
    intro i r h j hij hj
    simp only [pyFindGo] at h
    split at h
    · split at h
      · rename_i hm
        rw [Option.some_inj] at h
        omega
      · rename_i hm
        rcases Nat.eq_or_lt_of_le hij with rfl | hlt
        · exact absurd (matchAt_true.2 hj) (by simpa using hm)
        · exact ih (i + 1) r h j (by omega) hj
    · exact absurd h (by simp)

theorem pyFindGo_complete (s sub : Str) :
    ∀ fuel i j, occursAt s sub j → i ≤ j → j - i < fuel →
      j + sub.length ≤ s.length →
      (pyFindGo s sub fuel i).isSome := by
  intro fuel
  induction fuel with
  | zero => intro i j _ _ hf _; omega
  | succ fuel ih =>
    intro i j hj hij hf hjb
    simp only [pyFindGo]
    rw [if_pos (by omega : i + sub.length ≤ s.length)]
    split
    · simp
    · rename_i hm
      rcases Nat.eq_or_lt_of_le hij with rfl | hlt
      · exact absurd (matchAt_true.2 hj) (by simpa using hm)
      · exact ih (i + 1) j hj (by omega) (by omega) hjb

theorem pyFind_sound (s sub : Str) (start r : Nat)
    (h : pyFind s sub start = some r) :
    start ≤ r ∧ occursAt s sub r ∧ r + sub.length ≤ s.length :=
  pyFindGo_sound s sub (s.length + 1) start r h

theorem pyFind_min (s sub : Str) (start r : Nat)
    (h : pyFind s sub start = some r) :
    ∀ j, start ≤ j → occursAt s sub j → r ≤ j :=
  pyFindGo_min s sub (s.length + 1) start r h

theorem pyFind_complete (s sub : Str) (start j : Nat)
    (hj : occursAt s sub j) (hij : start ≤ j) (hne : sub ≠ []) :
    (pyFind s sub start).isSome := by
  have hjb := occursAt_le hj hne
  exact pyFindGo_complete s sub (s.length + 1) start j hj hij (by omega) hjb

/-! ### `strip` decomposition and idempotence (for C4) -/

theorem pyRstrip_prefix (u : Str) : ∃ w, u = pyRstrip u ++ w := by
  refine ⟨(u.reverse.takeWhile pyIsSpace).reverse, ?_⟩
  unfold pyRstrip
  rw [← List.reverse_append, List.takeWhile_append_dropWhile, List.reverse_reverse]

theorem dropWhile_eq_drop (p : Char → Bool) :
    ∀ l : Str, l.dropWhile p = l.drop (l.takeWhile p).length := by
  intro l
  induction l with
  | nil => rfl
  | cons c rest ih =>
    by_cases h : p c
    · simp [List.dropWhile_cons, List.takeWhile_cons, h, ih]
    · simp [List.dropWhile_cons, List.takeWhile_cons, h]

theorem pyStrip_occurs (t : Str) :
    occursAt t (pyStrip t) (t.takeWhile pyIsSpace).length ∧
      (t.takeWhile pyIsSpace).length + (pyStrip t).length ≤ t.length := by
  obtain ⟨w, hw⟩ := pyRstrip_prefix (pyLstrip t)
  have h2 : pyLstrip t = pyStrip t ++ w := hw
  have hdrop : t.drop (t.takeWhile pyIsSpace).length = pyStrip t ++ w := by
    rw [← h2]
    exact (dropWhile_eq_drop pyIsSpace t).symm
  have hocc : occursAt t (pyStrip t ++ w) (t.takeWhile pyIsSpace).length := by
    unfold occursAt
    rw [hdrop, List.take_length]
  constructor
  · exact occursAt_append_left hocc
  · have hlen := congrArg List.length hdrop
    rw [List.length_drop, List.length_append] at hlen
    have htw : (t.takeWhile pyIsSpace).length ≤ t.length := by
      have := congrArg List.length (List.takeWhile_append_dropWhile pyIsSpace t)
      rw [List.length_append] at this
      omega
    omega

theorem dropWhile_head_not (p : Char → Bool) :
    ∀ (l : Str) c rest, l.dropWhile p = c :: rest → p c = false := by
  intro l
  induction l with
  | nil => intro c rest h; exact absurd h (by simp)
  | cons x xs ih =>
    intro c rest h
    rw [List.dropWhile_cons] at h
    split at h
    · exact ih c rest h
    · rename_i hx
      rw [List.cons.injEq] at h
      rw [← h.1]
      exact Bool.not_eq_true _ ▸ (by simpa using hx)

theorem dropWhile_dropWhile (p : Char → Bool) (l : Str) :
    (l.dropWhile p).dropWhile p = l.dropWhile p := by
  cases h : l.dropWhile p with
  | nil => rfl
  | cons c rest =>
    have hc := dropWhile_head_not p l c rest h
    rw [List.dropWhile_cons, hc]
    simp

theorem pyRstrip_idem (u : Str) : pyRstrip (pyRstrip u) = pyRstrip u := by
  unfold pyRstrip
  rw [List.reverse_reverse, dropWhile_dropWhile]

theorem pyStrip_idem (t : Str) : pyStrip (pyStrip t) = pyStrip t := by
  have hl : pyLstrip (pyStrip t) = pyStrip t := by
    cases hy : pyStrip t with
    | nil => rfl
    | cons c rest =>
      obtain ⟨w, hw⟩ := pyRstrip_prefix (pyLstrip t)
      have h2 : pyLstrip t = pyStrip t ++ w := hw
      rw [hy] at h2
      have hc : pyIsSpace c = false := by
        refine dropWhile_head_not pyIsSpace t c (rest ++ w) ?_
        exact h2
      unfold pyLstrip
      rw [List.dropWhile_cons, hc]
      simp
  show pyRstrip (pyLstrip (pyStrip t)) = pyStrip t
  rw [hl]
  show pyRstrip (pyRstrip (pyLstrip t)) = pyStrip t
  rw [pyRstrip_idem]
  rfl

theorem splitlinesKeepGo_flatten :
    ∀ (s acc : Str), (splitlinesKeepGo s acc).flatten = acc.reverse ++ s := by
  intro s
  induction s with
  | nil =>
    intro acc
    simp only [splitlinesKeepGo]
    split
    · rename_i h
      subst h
      simp
    · simp
  | cons c rest ih =>
    intro acc
    simp only [splitlinesKeepGo]
    split
    · rename_i hc
      subst hc
      simp only [List.flatten_cons, ih []]
      simp
    · rw [ih (c :: acc)]
      simp

/-! ### Occurrence-chain lemmas (for C4) -/

theorem occChainB_mono {src : Str} :
    ∀ {ts : List Str} {i i' b : Nat}, i' ≤ i → OccChainB src i ts b →
      OccChainB src i' ts b := by
  intro ts
  induction ts with
  | nil => intro i i' b _ _; trivial
  | cons t rest ih =>
    intro i i' b hle h
    obtain ⟨j, hj1, hj2, hj3, hj4⟩ := h
    exact ⟨j, by omega, hj2, hj3, hj4⟩

theorem occChainB_mono_b {src : Str} :
    ∀ {ts : List Str} {i b b' : Nat}, b ≤ b' → OccChainB src i ts b →
      OccChainB src i ts b' := by
  intro ts
  induction ts with
  | nil => intro i b b' _ _; trivial
  | cons t rest ih =>
    intro i b b' hle h
    obtain ⟨j, hj1, hj2, hj3, hj4⟩ := h
    exact ⟨j, hj1, hj2, by omega, ih hle hj4⟩

theorem occChainB_map_strip {src : Str} :
    ∀ {ts : List Str} {i b : Nat}, OccChainB src i ts b →
      OccChainB src i (ts.map pyStrip) b := by
  intro ts
  induction ts with
  | nil => intro i b _; trivial
  | cons t rest ih =>
    intro i b h
    obtain ⟨j, hj1, hj2, hj3, hj4⟩ := h
    obtain ⟨hso, hsl⟩ := pyStrip_occurs t
    refine ⟨j + (t.takeWhile pyIsSpace).length, by omega,
      occursAt_trans hj2 hso, by omega, ?_⟩
    exact occChainB_mono (by omega) (ih hj4)

theorem occChainB_filter {src : Str} (q : Str → Bool) :
    ∀ {ts : List Str} {i b : Nat}, OccChainB src i ts b →
      OccChainB src i (ts.filter q) b := by
  intro ts
  induction ts with
  | nil => intro i b _; trivial
  | cons t rest ih =>
    intro i b h
    obtain ⟨j, hj1, hj2, hj3, hj4⟩ := h
    rw [List.filter_cons]
    split
    · exact ⟨j, hj1, hj2, hj3, ih hj4⟩
    · exact occChainB_mono (by omega) (ih hj4)

theorem occChainB_embed {src sub : Str} {p : Nat} (hocc : occursAt src sub p) :
    ∀ {ts : List Str} {i b : Nat}, OccChainB sub i ts b →
      OccChainB src (p + i) ts (p + b) := by
  intro ts
  induction ts with
  | nil => intro i b _; trivial
  | cons t rest ih =>
    intro i b h
    obtain ⟨j, hj1, hj2, hj3, hj4⟩ := h
    refine ⟨p + j, by omega, occursAt_trans hocc hj2, by omega, ?_⟩
    have := ih hj4
    have harr : p + (j + t.length) = p + j + t.length := by omega
    rw [harr] at this
    exact this

theorem paraChain_mono {src : Str} :
    ∀ {paras : List (Str × Nat)} {i i' : Nat}, i' ≤ i →
      ParaChain src i paras → ParaChain src i' paras := by
  intro paras
  induction paras with
  | nil => intro i i' _ _; trivial
  | cons tp rest ih =>
    intro i i' hle h
    exact ⟨by have := h.1; omega, h.2.1, h.2.2⟩

/-! ### The regex split produces an ordered occurrence chain -/

theorem splitScan_append :
    ∀ (u : Str) (mode : Bool) (accRev : Str) (out : List Str),
      splitScan mode u accRev out = out ++ splitScan mode u accRev [] := by
  intro u
  induction u with
  | nil =>
    intro mode accRev out
    cases mode <;> simp [splitScan]
  | cons c rest ih =>
    intro mode accRev out
    cases mode with
    | false =>
      simp only [splitScan]
      split
      · rw [ih true [] (out ++ [accRev.reverse]), ih true [] ([] ++ [accRev.reverse])]
        simp
      · exact ih false (c :: accRev) out
    | true =>
      simp only [splitScan]
      split
      · exact ih true accRev out
      · exact ih false [c] out

theorem splitScan_chain {src : Str} :
    ∀ (u : Str) (mode : Bool) (accRev : Str) (j k : Nat),
      occursAt src accRev.reverse j →
      occursAt src u k →
      j + accRev.length ≤ k →
      (mode = false → j + accRev.length = k) →
      OccChainB src j (splitScan mode u accRev []) (k + u.length) := by
  intro u
  induction u with
  | nil =>
    intro mode accRev j k hacc _ hjk _
    have hgoal : OccChainB src j [accRev.reverse] (k + ([] : Str).length) :=
      ⟨j, Nat.le_refl j, hacc,
        by simp only [List.length_reverse, List.length_nil]; omega, trivial⟩
    cases mode
    · exact hgoal
    · exact hgoal
  | cons c rest ih =>
    intro mode accRev j k hacc hu hjk hmode
    have hsplit : occursAt src ([c] ++ rest) k := hu
    have hc1 : occursAt src [c] k := occursAt_append_left hsplit
    have hrest : occursAt src rest (k + 1) := occursAt_append_right hsplit
    cases mode with
    | false =>
      simp only [splitScan]
      split
      · rename_i hcond
        rw [List.nil_append, splitScan_append]
        have hk : j + accRev.length = k := hmode rfl
        refine ⟨j, Nat.le_refl j, hacc, ?_, ?_⟩
        · simp only [List.length_reverse, List.length_cons]
          omega
        · have h9 := ih true [] k (k + 1) (occursAt_nil src k) hrest
            (by simp only [List.length_nil]; omega)
            (fun h => absurd h (by decide))
          have harr : k + 1 + rest.length = k + (c :: rest).length := by
            simp only [List.length_cons]; omega
          rw [harr] at h9
          exact occChainB_mono (by simp only [List.length_reverse]; omega) h9
      · rename_i hcond
        have hk : j + accRev.length = k := hmode rfl
        have hacc' : occursAt src (c :: accRev).reverse j := by
          rw [List.reverse_cons]
          refine occursAt_append hacc ?_
          have hkk : j + accRev.reverse.length = k := by
            simp only [List.length_reverse]; omega
          rw [hkk]
          exact hc1
        have h9 := ih false (c :: accRev) j (k + 1) hacc' hrest
          (by simp only [List.length_cons]; omega)
          (fun _ => by simp only [List.length_cons]; omega)
        have harr : k + 1 + rest.length = k + (c :: rest).length := by
          simp only [List.length_cons]; omega
        rw [harr] at h9
        exact h9
    | true =>
      simp only [splitScan]
      split
      · rename_i hcond
        have h9 := ih true accRev j (k + 1) hacc hrest (by omega)
          (fun h => absurd h (by decide))
        have harr : k + 1 + rest.length = k + (c :: rest).length := by
          simp only [List.length_cons]; omega
        rw [harr] at h9
        exact h9
      · rename_i hcond
        have h9 := ih false [c] k (k + 1) hc1 hrest
          (by simp only [List.length_cons, List.length_nil]; omega)
          (fun _ => by simp)
        have harr : k + 1 + rest.length = k + (c :: rest).length := by
          simp only [List.length_cons]; omega
        rw [harr] at h9
        exact occChainB_mono (by omega) h9

theorem regexSplit_chain {src s : Str} {p : Nat} (h : occursAt src s p) :
    OccChainB src p (regexSplitSentences s) (p + s.length) :=
  splitScan_chain s false [] p p (occursAt_nil src p) h (by simp)
    (fun _ => by simp)

theorem split_sentences_chain {src t : Str} {p : Nat} (h : occursAt src t p) :
    OccChainB src p (split_sentences t) (p + t.length) := by
  simp only [split_sentences]
  split
  · trivial
  · obtain ⟨hso, hsl⟩ := pyStrip_occurs t
    have hsrc : occursAt src (pyStrip t) (p + (t.takeWhile pyIsSpace).length) :=
      occursAt_trans h hso
    have hch := regexSplit_chain hsrc
    have hch2 := occChainB_map_strip hch
    have hch3 := occChainB_filter (fun q => !q.isEmpty) hch2
    exact occChainB_mono_b (by omega) (occChainB_mono (by omega) hch3)

theorem split_sentences_stripped {t s : Str} (h : s ∈ split_sentences t) :
    pyStrip s = s ∧ s ≠ [] := by
  simp only [split_sentences] at h
  split at h
  · exact absurd h (List.not_mem_nil s)
  · rw [List.mem_filter] at h
    obtain ⟨hmem, hne⟩ := h
    rw [List.mem_map] at hmem
    obtain ⟨x, _, hx⟩ := hmem
    constructor
    · rw [← hx]
      exact pyStrip_idem x
    · intro hnil
      rw [hnil] at hne
      simp at hne

/-! ### The paragraph loop produces an ordered paragraph chain -/

theorem paraGo_append {src : Str} :
    ∀ (lines current : List Str) (pstart : Option Nat) (position : Nat)
      (paras : List (Str × Nat)),
      paraGo src lines current pstart position paras =
        paras ++ paraGo src lines current pstart position [] := by
  intro lines
  induction lines with
  | nil =>
    intro current pstart position paras
    cases pstart with
    | none => simp [paraGo]
    | some p =>
      simp only [paraGo]
      split
      · simp
      · simp
  | cons line rest ih =>
    intro current pstart position paras
    cases pstart with
    | none =>
      simp only [paraGo]
      split
      · exact ih _ _ _ paras
      · exact ih _ _ _ paras
    | some p =>
      simp only [paraGo]
      split
      · exact ih _ _ _ paras
      · split
        · rw [ih _ _ _ (paras ++ [(current.flatten, p)]),
            ih _ _ _ ([] ++ [(current.flatten, p)])]
          simp
        · exact ih _ _ _ paras

theorem paraGo_chain {src : Str} :
    ∀ (lines current : List Str) (pstart : Option Nat) (position i : Nat),
      occursAt src lines.flatten position →
      i ≤ position →
      (pstart = none → current = []) →
      (∀ p, pstart = some p → current ≠ [] ∧ i ≤ p ∧
        occursAt src current.flatten p ∧
        p + current.flatten.length = position) →
      ParaChain src i (paraGo src lines current pstart position []) := by
  intro lines
  induction lines with
  | nil =>
    intro current pstart position i _ _ _ hsome
    cases pstart with
    | none => simp only [paraGo]; trivial
    | some p =>
      simp only [paraGo]
      split
      · obtain ⟨_, hip, hocc, _⟩ := hsome p rfl
        exact ⟨hip, hocc, trivial⟩
      · trivial
  | cons line rest ih =>
    intro current pstart position i hfl hi hnone hsome
    rw [List.flatten_cons] at hfl
    have hline : occursAt src line position := occursAt_append_left hfl
    have hrest : occursAt src rest.flatten (position + line.length) :=
      occursAt_append_right hfl
    cases pstart with
    | none =>
      have hcur : current = [] := hnone rfl
      subst hcur
      simp only [paraGo]
      split
      · refine ih ([] ++ [line]) (some position) (position + line.length) i
          hrest (by omega) (fun h => nomatch h) ?_
        intro p hp
        injection hp with hp
        subst hp
        refine ⟨by simp, hi, ?_, ?_⟩
        · simp only [List.nil_append, List.flatten_cons, List.flatten_nil,
            List.append_nil]
          exact hline
        · simp only [List.nil_append, List.flatten_cons, List.flatten_nil,
            List.append_nil]
      · exact ih [] none (position + line.length) i hrest (by omega)
          (fun _ => rfl) (fun p hp => nomatch hp)
    | some p =>
      obtain ⟨hcne, hip, hocc, hlen⟩ := hsome p rfl
      simp only [paraGo]
      split
      · refine ih (current ++ [line]) (some p) (position + line.length) i
          hrest (by omega) (fun h => nomatch h) ?_
        intro q hq
        injection hq with hq
        subst hq
        refine ⟨by simp, hip, ?_, ?_⟩
        · rw [List.flatten_append]
          refine occursAt_append hocc ?_
          rw [hlen]
          simp only [List.flatten_cons, List.flatten_nil, List.append_nil]
          exact hline
        · rw [List.flatten_append]
          simp only [List.length_append, List.flatten_cons, List.flatten_nil,
            List.append_nil]
          omega
      · rw [List.nil_append, paraGo_append]
        refine ⟨hip, hocc, ?_⟩
        exact ih [] none (position + line.length) (p + current.flatten.length)
          hrest (by omega) (fun _ => rfl) (fun q hq => nomatch hq)

/-! ### Slice-block toolkit -/

theorem sliceBlock_nil {source : Str} {lo hi : Nat} (h : lo ≤ hi) :
    SliceBlock source lo ([] : List SentenceSlice) hi :=
  ⟨fun sl hm => absurd hm (List.not_mem_nil sl), List.chain'_nil, h⟩

theorem sliceBlock_mono_lo {source : Str} {lo lo' hi : Nat}
    {l : List SentenceSlice} (h : lo' ≤ lo) (hb : SliceBlock source lo l hi) :
    SliceBlock source lo' l hi := by
  obtain ⟨he, hc, hlh⟩ := hb
  refine ⟨?_, hc, by omega⟩
  intro sl hm
  obtain ⟨a, b, c⟩ := he sl hm
  exact ⟨a, by omega, c⟩

theorem sliceBlock_cons {source : Str} {lo m hi : Nat} {sl : SentenceSlice}
    {l : List SentenceSlice}
    (hblock : SliceBlock source m l hi)
    (ht : sl.text = pyStrip (pySlice source sl.start sl.stop))
    (h1 : lo ≤ sl.start) (h2 : sl.start ≤ m) :
    SliceBlock source lo (sl :: l) hi := by
  obtain ⟨helem, hchain, hlohi⟩ := hblock
  refine ⟨?_, ?_, by omega⟩
  · intro x hx
    rcases List.mem_cons.mp hx with h | h
    · subst h
      exact ⟨ht, h1, by omega⟩
    · obtain ⟨a, b, c⟩ := helem x h
      exact ⟨a, by omega, c⟩
  · rw [List.chain'_cons']
    refine ⟨?_, hchain⟩
    intro b hb
    have hbm : b ∈ l := List.mem_of_mem_head? hb
    obtain ⟨_, hb1, _⟩ := helem b hbm
    omega

theorem sliceBlock_append {source : Str} {lo mid hi : Nat}
    {l1 l2 : List SentenceSlice}
    (h1 : SliceBlock source lo l1 mid) (h2 : SliceBlock source mid l2 hi) :
    SliceBlock source lo (l1 ++ l2) hi := by
  obtain ⟨e1, c1, b1⟩ := h1
  obtain ⟨e2, c2, b2⟩ := h2
  refine ⟨?_, ?_, by omega⟩
  · intro x hx
    rcases List.mem_append.mp hx with h | h
    · obtain ⟨a, b, c⟩ := e1 x h
      exact ⟨a, b, by omega⟩
    · obtain ⟨a, b, c⟩ := e2 x h
      exact ⟨a, by omega, c⟩
  · refine List.Chain'.append c1 c2 ?_
    intro x hx y hy
    have hx' : x ∈ l1 := List.mem_of_mem_getLast? hx
    have hy' : y ∈ l2 := List.mem_of_mem_head? hy
    obtain ⟨_, _, hxm⟩ := e1 x hx'
    obtain ⟨_, hym, _⟩ := e2 y hy'
    omega

theorem emitted_block {source : Str} {pIdx a b hi : Nat} (h : a ≤ hi) :
    SliceBlock source a
      (if pyStrip (pySlice source a b) = [] then []
       else [⟨pyStrip (pySlice source a b), a, b, pIdx⟩]) hi := by
  split
  · exact sliceBlock_nil h
  · refine ⟨?_, List.chain'_singleton _, h⟩
    intro sl hm
    rw [List.mem_singleton] at hm
    subst hm
    exact ⟨rfl, Nat.le_refl a, h⟩

/-! ### Bounds for the backtracking segment end -/

theorem lastIndexOf_lt {l : Str} {c : Char} :
    ∀ {j : Nat}, lastIndexOf l c = some j → j < l.length := by
  induction l with
  | nil => intro j h; simp [lastIndexOf] at h
  | cons x xs ih =>
    intro j h
    simp only [lastIndexOf] at h
    split at h
    · rename_i k hk
      injection h with h
      have := ih hk
      simp only [List.length_cons]
      omega
    · split at h
      · injection h with h
        simp only [List.length_cons]
        omega
      · cases h

theorem pyRfindChar_bounds {s : Str} {c : Char} {a b r : Nat}
    (h : pyRfindChar s c a b = some r) :
    a ≤ r ∧ r < b ∧ r < s.length := by
  unfold pyRfindChar at h
  cases hli : lastIndexOf (pySlice s a b) c with
  | none => rw [hli] at h; cases h
  | some j =>
    rw [hli] at h
    injection h with h
    have hj := lastIndexOf_lt hli
    have hlen : (pySlice s a b).length = min b s.length - a := by
      unfold pySlice
      rw [List.length_drop, List.length_take]
    rw [hlen] at hj
    omega

theorem segEnd_le {source : Str} {maxChars segStart endIdx : Nat} :
    segEnd source maxChars segStart endIdx ≤ endIdx := by
  simp only [segEnd]
  split
  · rename_i h0
    split
    · rename_i b hb
      split
      · rename_i hsb
        split at hb
        · have := pyRfindChar_bounds hb
          omega
        · split at hb
          · have := pyRfindChar_bounds hb
            omega
          · rename_i b0 hb0 hcmp
            injection hb with hb
            have := pyRfindChar_bounds hb0
            omega
      · omega
    · omega
  · omega

theorem segLoop_block {source : Str} {maxChars pIdx endIdx : Nat} :
    ∀ (fuel segStart : Nat), segStart ≤ endIdx →
      SliceBlock source segStart
        (segLoop source maxChars pIdx endIdx fuel segStart) endIdx := by
  intro fuel
  induction fuel with
  | zero =>
    intro segStart h
    exact sliceBlock_nil h
  | succ fuel ih =>
    intro segStart hse
    simp only [segLoop]
    split
    · rename_i hlt
      have hse1 : segEnd source maxChars segStart endIdx ≤ endIdx := segEnd_le
      have hse0 : min (segStart + maxChars) endIdx ≤ endIdx :=
        Nat.min_le_right _ _
      split
      · rename_i hlt1
        exact sliceBlock_append (emitted_block (by omega))
          (ih (segEnd source maxChars segStart endIdx) hse1)
      · split
        · rename_i hlt0
          exact sliceBlock_append (emitted_block (by omega))
            (ih (min (segStart + maxChars) endIdx) hse0)
        · exact sliceBlock_mono_lo (Nat.le_refl segStart)
            (emitted_block (by omega))
    · exact sliceBlock_nil hse

theorem processSentences_ok {source : Str} {maxChars pIdx : Nat} :
    ∀ (sents : List Str) (ss bnd : Nat),
      OccChainB source ss sents bnd →
      (∀ s ∈ sents, pyStrip s = s) →
      SliceBlock source ss (processSentences source maxChars pIdx sents ss).1
        (processSentences source maxChars pIdx sents ss).2 ∧
      ss ≤ (processSentences source maxChars pIdx sents ss).2 ∧
      (processSentences source maxChars pIdx sents ss).2 ≤ max ss bnd := by
  intro sents
  induction sents with
  | nil =>
    intro ss bnd _ _
    exact ⟨sliceBlock_nil (Nat.le_refl ss), Nat.le_refl ss,
      Nat.le_max_left ss bnd⟩
  | cons s rest ih =>
    intro ss bnd hch hstrip
    obtain ⟨j, hj1, hocc, hj3, hch'⟩ := hch
    simp only [processSentences]
    split
    · rename_i hs
      subst hs
      have hch2 : OccChainB source ss rest bnd :=
        occChainB_mono (by simp only [List.length_nil]; omega) hch'
      exact ih ss bnd hch2 (fun x hx => hstrip x (List.mem_cons_of_mem _ hx))
    · rename_i hs
      cases hfind : pyFind source s ss with
      | none =>
        exfalso
        have hcomp := pyFind_complete source s ss j hocc hj1 hs
        rw [hfind] at hcomp
        simp at hcomp
      | some idx =>
        split
        · rename_i heq
          simp at heq
        · rename_i idx2 heq
          simp only [Option.some.injEq] at heq
          subst heq
          obtain ⟨hidx1, hoccIdx, hidx3⟩ := pyFind_sound source s ss idx hfind
          have hmin : idx ≤ j := pyFind_min source s ss idx hfind j hj1 hocc
          have hch2 : OccChainB source (idx + s.length) rest bnd :=
            occChainB_mono (by omega) hch'
          obtain ⟨ihb, ih1, ih2⟩ := ih (idx + s.length) bnd hch2
            (fun x hx => hstrip x (List.mem_cons_of_mem _ hx))
          have htext : s = pyStrip (pySlice source idx (idx + s.length)) := by
            rw [occursAt_slice hoccIdx, hstrip s (List.mem_cons_self s rest)]
          have hslen : 1 ≤ s.length := by
            cases s with
            | nil => exact absurd rfl hs
            | cons a l => simp
          split
          · rename_i hfit
            dsimp only
            refine ⟨sliceBlock_cons ihb htext hidx1 (by dsimp only; omega),
              by omega, by omega⟩
          · rename_i hbig
            dsimp only
            have hseg : SliceBlock source idx
                (segLoop source maxChars pIdx (idx + s.length)
                  (idx + s.length + 1) idx) (idx + s.length) :=
              segLoop_block _ idx (by omega)
            refine ⟨sliceBlock_append (sliceBlock_mono_lo hidx1 hseg) ihb,
              by omega, by omega⟩

theorem paraLoop_ok {source : Str} {maxChars : Nat} :
    ∀ (paras : List (Str × Nat)) (pIdx ss i : Nat),
      ss ≤ i → ParaChain source i paras →
      ∃ hi, SliceBlock source ss (paraLoop source maxChars paras pIdx ss) hi := by
  intro paras
  induction paras with
  | nil =>
    intro pIdx ss i _ _
    exact ⟨ss, sliceBlock_nil (Nat.le_refl ss)⟩
  | cons tp rest ih =>
    intro pIdx ss i hssi hch
    obtain ⟨ptext, pstart⟩ := tp
    obtain ⟨hip, hocc, hch'⟩ := hch
    simp only [paraLoop]
    split
    · exact ih (pIdx + 1) ss (pstart + ptext.length) (by omega) hch'
    · have hchain0 := split_sentences_chain hocc
      have hchain1 : OccChainB source (max ss pstart) (split_sentences ptext)
          (pstart + ptext.length) :=
        occChainB_mono (by omega) hchain0
      have hstripped : ∀ s ∈ split_sentences ptext, pyStrip s = s :=
        fun s hs => (split_sentences_stripped hs).1
      obtain ⟨hblock, hle1, hle2⟩ := @processSentences_ok source maxChars pIdx
        (split_sentences ptext) (max ss pstart) (pstart + ptext.length)
        hchain1 hstripped
      have hr2 : (processSentences source maxChars pIdx (split_sentences ptext)
          (max ss pstart)).2 ≤ pstart + ptext.length := by omega
      obtain ⟨hi2, hblock2⟩ := ih (pIdx + 1)
        (processSentences source maxChars pIdx (split_sentences ptext)
          (max ss pstart)).2
        (pstart + ptext.length) hr2 hch'
      exact ⟨hi2, sliceBlock_append
        (sliceBlock_mono_lo (Nat.le_max_left ss pstart) hblock) hblock2⟩

/-- C4: for every `max_chars` setting and every cleaned text, every
`SentenceSlice` produced by `build_sentence_slices` satisfies
`slice.text == cleaned_text[slice.start:slice.end].strip()`, and the slices
appear in non-decreasing order of `start` — the offset-search cursor
advances monotonically, and the fallback unconstrained search never breaks
the order (it is in fact never reached, because the forward search from the
cursor always succeeds at or before the sentence's true position). -/
theorem build_sentence_slices_spec (maxChars : Nat) (sourceText : Str) :
    (∀ sl ∈ build_sentence_slices maxChars sourceText,
        sl.text = pyStrip (pySlice sourceText sl.start sl.stop)) ∧
      List.Chain' (fun a b => a.start ≤ b.start)
        (build_sentence_slices maxChars sourceText) := by
  simp only [build_sentence_slices]
  split
  · exact ⟨fun sl h => absurd h (List.not_mem_nil sl), List.chain'_nil⟩
  · rename_i hstrip_ne
    have hflat : (pySplitlinesKeep sourceText).flatten = sourceText := by
      unfold pySplitlinesKeep
      rw [splitlinesKeepGo_flatten]
      simp
    have hlines : occursAt sourceText (pySplitlinesKeep sourceText).flatten 0 := by
      rw [hflat]
      exact occursAt_refl sourceText
    have hpara0 : ParaChain sourceText 0
        (paraGo sourceText (pySplitlinesKeep sourceText) [] none 0 []) :=
      paraGo_chain (pySplitlinesKeep sourceText) [] none 0 0 hlines
        (Nat.le_refl 0) (fun _ => rfl) (fun p hp => nomatch hp)
    have hpara : ParaChain sourceText 0
        (if paraGo sourceText (pySplitlinesKeep sourceText) [] none 0 [] = []
         then [(sourceText, 0)]
         else paraGo sourceText (pySplitlinesKeep sourceText) [] none 0 []) := by
      split
      · exact ⟨Nat.le_refl 0, occursAt_refl sourceText, trivial⟩
      · exact hpara0
    obtain ⟨hi, hblock⟩ := paraLoop_ok _ 0 0 0 (Nat.le_refl 0) hpara
    obtain ⟨helem, hchain, _⟩ := hblock
    by_cases hsl : paraLoop sourceText maxChars
        (if paraGo sourceText (pySplitlinesKeep sourceText) [] none 0 [] = []
         then [(sourceText, 0)]
         else paraGo sourceText (pySplitlinesKeep sourceText) [] none 0 [])
        0 0 ≠ []
    · rw [if_pos hsl]
      exact ⟨fun sl h => (helem sl h).1, hchain⟩
    · rw [if_neg hsl]
      refine ⟨?_, List.chain'_singleton _⟩
      intro sl hmem
      rw [List.mem_singleton] at hmem
      subst hmem
      cases hf : pyFind sourceText (pyStrip sourceText) 0 with
      | none =>
        exfalso
        obtain ⟨hso, _⟩ := pyStrip_occurs sourceText
        have hcomp := pyFind_complete sourceText (pyStrip sourceText)
          0 (sourceText.takeWhile pyIsSpace).length hso (Nat.zero_le _)
          hstrip_ne
        rw [hf] at hcomp
        simp at hcomp
      | some i =>
        obtain ⟨_, hocc, _⟩ := pyFind_sound sourceText (pyStrip sourceText) 0 i hf
        show pyStrip sourceText =
          pyStrip (pySlice sourceText i (i + (pyStrip sourceText).length))
        rw [occursAt_slice hocc, pyStrip_idem]
